import Mathlib

set_option maxRecDepth 100000

/-!
Shallow embedding of the sim-affiliate simulation engine
(src/bonding_curves.py, src/crypto_token.py, src/affiliate.py,
src/simulation.py, src/constants.py).

Numbers are modelled as exact rationals.  The transcendental helpers
(`np.exp`, `np.sqrt`) are abstracted into a `CurveEnv` of uninterpreted
functions, and all ambient numpy randomness is modelled by a `RandOracle`
(two streams indexed by an explicit draw counter that every random call
advances).  Python exceptions are modelled with `Except`; token-level
operations carry the token state at raise time, matching the fact that
in-place mutations performed before a raise persist on the object.
-/

/- ## Constants (src/constants.py) -/

def TRANSACTION_FEE_RATE : ℚ := (25/10000)
def BURN_RATE : ℚ := (2/10000)
def INITIAL_COMMISSION_RATE : ℚ := (10/100)
def INITIAL_TOKEN_INVESTMENT : ℚ := 10
def COMMISSION_DYNAMICS_STEP : ℕ := 10
def DYNAMIC_ADJUSTMENT_RATE : ℚ := (5/10000)
def MOVING_AVERAGE_WINDOW : ℕ := 50
def COMMISSION_RATE_MIN : ℚ := 0
def COMMISSION_RATE_MAX : ℚ := (20/100)
def WHALE_INVESTMENT_MIN : ℚ := 5000
def WHALE_INVESTMENT_MAX : ℚ := 10000
def BUY_PROBABILITY : ℚ := (6/10)
def SELL_PROBABILITY : ℚ := (5/100)
def MAX_SELL_PERCENTAGE : ℚ := (5/100)
def INVESTMENT_THRESHOLD : ℚ := 50

/- ## Errors (Python ValueError / KeyError / IndexError / ZeroDivisionError) -/

inductive Err : Type
  | buyAmountNotPositive
  | sellAmountNotPositive
  | sellAmountExceedsSupply
  | supplyNegative
  | expKTooLarge
  | sigmoidCapNotPositive
  | sigmoidSteepnessNotPositive
  | inverseScaleNotPositive
  | initialSupplyNegative
  | initialPriceNegative
  | curveFuncNotInList
  | affiliateIdNegative
  | commissionRateOutOfBounds
  | tradeAmountNegative
  | emptyRandRange
  | indexOutOfRange
  | moduloByZero
  | keyNotFound
deriving DecidableEq, Repr

/- ## Randomness and transcendental environment -/

/-- Abstract interpretation of `np.exp` and `np.sqrt`. -/
structure CurveEnv where
  exp : ℚ → ℚ
  sqrt : ℚ → ℚ

/-- The ambient numpy pseudo-random stream, projected to naturals (for
`randint`/`choice`) and rationals (for `rand`/`uniform`).  Each call
consumes one index. -/
structure RandOracle where
  nats : ℕ → ℕ
  rats : ℕ → ℚ

def clamp01 (x : ℚ) : ℚ := max 0 (min x 1)

/-- `np.random.uniform(lo, hi)` at draw index `k`. -/
def uniformVal (o : RandOracle) (k : ℕ) (lo hi : ℚ) : ℚ :=
  lo + (hi - lo) * clamp01 (o.rats k)

/-- `np.random.rand()` at draw index `k`. -/
def randVal (o : RandOracle) (k : ℕ) : ℚ := clamp01 (o.rats k)

/- ## Bonding curves (src/bonding_curves.py) -/

inductive CurveFamily : Type
  | linear
  | exponential
  | sigmoid
  | root
  | inverse
deriving DecidableEq, Repr

/-- Per-family numeric parameters, one call's worth. -/
inductive CurveParams : Type
  | linear (m b : ℚ)
  | exponential (a k : ℚ)
  | sigmoid (K k S0 : ℚ)
  | root (k : ℚ)
  | inverse (k : ℚ)
deriving DecidableEq, Repr

/-- One application of a bonding-curve function with explicit parameters,
with the validation checks in source order. -/
def evalCurveParams (env : CurveEnv) (p : CurveParams) (supply : ℚ) : Except Err ℚ :=
  match p with
  | .linear m b =>
      if supply < 0 then .error .supplyNegative
      else .ok (m * supply + b)
  | .exponential a k =>
      if supply < 0 then .error .supplyNegative
      else if |k| > (1/100) then .error .expKTooLarge
      else .ok (a * env.exp (k * supply))
  | .sigmoid K k S0 =>
      if supply < 0 then .error .supplyNegative
      else if K ≤ 0 then .error .sigmoidCapNotPositive
      else if k ≤ 0 then .error .sigmoidSteepnessNotPositive
      else .ok (K / (1 + env.exp (-(k * (supply - S0)))))
  | .root k =>
      if supply < 0 then .error .supplyNegative
      else .ok (env.sqrt supply * k)
  | .inverse k =>
      if supply < 0 then .error .supplyNegative
      else if k ≤ 0 then .error .inverseScaleNotPositive
      else .ok (k / (supply + 1))

/-- Default keyword parameters of the five module-level functions. -/
def defaultCurveParams : CurveFamily → CurveParams
  | .linear => .linear (1/1000) 1
  | .exponential => .exponential 1 (5/10000)
  | .sigmoid => .sigmoid 10 (1/10000) 5000
  | .root => .root (1/10)
  | .inverse => .inverse 100000

/-- A token's `bonding_curve_func` value: either one of the five
module-level functions, or a lambda installed by
`change_bonding_curve_parameters` (which re-draws its parameters from
`np.random.uniform` on every call). -/
inductive CurveFunc : Type
  | base (fam : CurveFamily)
  | lam (fam : CurveFamily)
deriving DecidableEq, Repr

def familyPyName : CurveFamily → String
  | .linear => "linear_bonding_curve"
  | .exponential => "exponential_bonding_curve"
  | .sigmoid => "sigmoid_bonding_curve"
  | .root => "root_bonding_curve"
  | .inverse => "inverse_bonding_curve"

/-- Python `__name__` of the function object. -/
def CurveFunc.pyName : CurveFunc → String
  | .base fam => familyPyName fam
  | .lam _ => "<lambda>"

/-- `bonding_curve_functions`, the ordered module-level list. -/
def bondingCurveFamilies : List CurveFamily :=
  [.linear, .exponential, .sigmoid, .root, .inverse]

/-- Parameters drawn by the lambda bodies installed by
`change_bonding_curve_parameters`, in the source's keyword order,
together with the advanced draw counter. -/
def drawnCurveParams (o : RandOracle) (fam : CurveFamily) (k : ℕ) : CurveParams × ℕ :=
  match fam with
  | .linear => (.linear (uniformVal o k (5/10000) (2/1000)) (uniformVal o (k+1) (5/10) (15/10)), k + 2)
  | .exponential => (.exponential (uniformVal o k (8/10) (12/10)) (uniformVal o (k+1) (4/10000) (6/10000)), k + 2)
  | .sigmoid => (.sigmoid (uniformVal o k 8 12) (uniformVal o (k+1) (8/100000) (12/100000))
      (uniformVal o (k+2) 4000 6000), k + 3)
  | .root => (.root (uniformVal o k (8/100) (12/100)), k + 1)
  | .inverse => (.inverse (uniformVal o k 80000 120000), k + 1)

/-- Calling the current `bonding_curve_func` on a supply value. -/
def evalCurveFunc (env : CurveEnv) (o : RandOracle) (f : CurveFunc) (supply : ℚ) (k : ℕ) :
    Except Err (ℚ × ℕ) :=
  match f with
  | .base fam => (evalCurveParams env (defaultCurveParams fam) supply).map (fun p => (p, k))
  | .lam fam =>
      let pk := drawnCurveParams o fam k
      (evalCurveParams env pk.1 supply).map (fun p => (p, pk.2))

/- ## Token (src/crypto_token.py) -/

structure CurveMetadata where
  function_name : String
  has_params : Bool
deriving DecidableEq, Repr

structure Token where
  name : String
  supply : ℚ
  price : ℚ
  bonding_curve_func : CurveFunc
  transaction_fee_rate : ℚ
  burn_rate : ℚ
  curve_metadata : CurveMetadata
deriving DecidableEq, Repr

instance : Inhabited Token :=
  ⟨⟨"", 0, 0, .base .linear, 0, 0, ⟨"", false⟩⟩⟩

/-- `Token.__init__`. -/
def Token.init (name : String) (initial_supply initial_price : ℚ) (f : CurveFunc) :
    Except Err Token :=
  if initial_supply < 0 then .error .initialSupplyNegative
  else if initial_price < 0 then .error .initialPriceNegative
  else .ok
    { name := name
      supply := initial_supply
      price := initial_price
      bonding_curve_func := f
      transaction_fee_rate := TRANSACTION_FEE_RATE
      burn_rate := BURN_RATE
      curve_metadata := ⟨f.pyName, false⟩ }

/-- `Token.calculate_price`. -/
def Token.calculate_price (env : CurveEnv) (o : RandOracle) (t : Token) (k : ℕ) :
    Except Err (ℚ × ℕ) :=
  evalCurveFunc env o t.bonding_curve_func t.supply k

/-- `Token.buy`.  Errors carry the token state at raise time (the supply
mutation on line 70 of the source precedes the price recomputation that
may raise). -/
def Token.buy (env : CurveEnv) (o : RandOracle) (t : Token) (amount : ℚ) (k : ℕ) :
    Except (Err × Token) ((Token × ℚ) × ℕ) :=
  if amount ≤ 0 then .error (.buyAmountNotPositive, t)
  else
    let fee := amount * t.transaction_fee_rate
    let burn := amount * t.burn_rate
    let amount_after_fee := amount - fee - burn
    if amount_after_fee ≤ 0 then .ok ((t, t.price), k)
    else
      let t1 : Token := { t with supply := t.supply + amount_after_fee }
      match Token.calculate_price env o t1 k with
      | .error e => .error (e, t1)
      | .ok (p, k') => .ok (({ t1 with price := p }, p), k')

/-- `Token.sell`. -/
def Token.sell (env : CurveEnv) (o : RandOracle) (t : Token) (amount : ℚ) (k : ℕ) :
    Except (Err × Token) ((Token × ℚ) × ℕ) :=
  if amount ≤ 0 then .error (.sellAmountNotPositive, t)
  else if amount > t.supply then .error (.sellAmountExceedsSupply, t)
  else
    let fee := amount * t.transaction_fee_rate
    let burn := amount * t.burn_rate
    let amount_after_fee := amount - fee - burn
    if amount_after_fee ≤ 0 then .ok ((t, t.price), k)
    else
      let t1 : Token := { t with supply := t.supply - amount_after_fee }
      match Token.calculate_price env o t1 k with
      | .error e => .error (e, t1)
      | .ok (p, k') => .ok (({ t1 with price := p }, p), k')

/-- `Token.change_bonding_curve`.  `bonding_curve_functions.index`
raises `ValueError` when the current function object is a lambda
installed by a parameter change (lambdas are not members of the
module-level list). -/
def Token.change_bonding_curve (t : Token) : Except Err Token :=
  match t.bonding_curve_func with
  | .lam _ => .error .curveFuncNotInList
  | .base fam =>
      let current_curve_index := bondingCurveFamilies.indexOf fam
      let next_curve_index := (current_curve_index + 1) % bondingCurveFamilies.length
      let newFam := bondingCurveFamilies.getD next_curve_index .linear
      .ok { t with
        bonding_curve_func := .base newFam
        curve_metadata := ⟨familyPyName newFam, false⟩ }

/-- `Token.change_bonding_curve_parameters`.  Dispatches on the current
function's `__name__`; a lambda's name is `"<lambda>"`, which matches no
branch, so a second parameter change leaves the token unchanged.  The
installed lambda defers its `np.random.uniform` draws to call time, so
this operation itself consumes no randomness. -/
def Token.change_bonding_curve_parameters (t : Token) : Token :=
  match t.bonding_curve_func with
  | .base fam =>
      { t with
        bonding_curve_func := .lam fam
        curve_metadata := ⟨familyPyName fam, true⟩ }
  | .lam _ => t

/- ## Affiliate (src/affiliate.py) -/

structure Affiliate where
  affiliate_id : ℤ
  commission_rate : ℚ
  is_whale : Bool
  base_currency_balance : ℚ
  wallet : List (String × ℚ)
  total_referral_amount : ℚ
  total_earned : ℚ
  earnings_history : List ℚ
  commission_rate_history : List ℚ
  recent_investment : List ℚ
  whale_investment_capacity : ℚ
deriving DecidableEq, Repr

/-- `Affiliate.__init__`.  A whale draws its investment capacity from
`np.random.uniform(WHALE_INVESTMENT_MIN, WHALE_INVESTMENT_MAX)`. -/
def Affiliate.init (o : RandOracle) (affiliate_id : ℤ) (initial_commission_rate : ℚ)
    (is_whale : Bool) (k : ℕ) : Except Err (Affiliate × ℕ) :=
  if affiliate_id < 0 then .error .affiliateIdNegative
  else if ¬ (COMMISSION_RATE_MIN ≤ initial_commission_rate ∧
      initial_commission_rate ≤ COMMISSION_RATE_MAX) then
    .error .commissionRateOutOfBounds
  else
    let capk : ℚ × ℕ :=
      if is_whale then (uniformVal o k WHALE_INVESTMENT_MIN WHALE_INVESTMENT_MAX, k + 1)
      else (0, k)
    .ok
      ({ affiliate_id := affiliate_id
         commission_rate := initial_commission_rate
         is_whale := is_whale
         base_currency_balance := 1000
         wallet := []
         total_referral_amount := 0
         total_earned := 0
         earnings_history := []
         commission_rate_history := []
         recent_investment := []
         whale_investment_capacity := capk.1 }, capk.2)

/-- `Affiliate.calculate_commission`. -/
def Affiliate.calculate_commission (a : Affiliate) (trade_amount : ℚ) : ℚ :=
  trade_amount * a.commission_rate

/-- `Affiliate.track_referral`. -/
def Affiliate.track_referral (a : Affiliate) (trade_amount : ℚ) : Except Err Affiliate :=
  if trade_amount < 0 then .error .tradeAmountNegative
  else .ok { a with
    total_earned := a.total_earned + a.calculate_commission trade_amount
    total_referral_amount := a.total_referral_amount + trade_amount }

/-- `np.mean` of the recent-investment window, `0` when empty. -/
def meanList (l : List ℚ) : ℚ :=
  if l.isEmpty then 0 else l.sum / (l.length : ℚ)

/-- `Affiliate.adjust_commission_dynamically`. -/
def Affiliate.adjust_commission_dynamically (a : Affiliate) (step : ℕ) : Affiliate :=
  if step % COMMISSION_DYNAMICS_STEP = 0 then
    let avg_investment := meanList a.recent_investment
    let r :=
      if avg_investment > INVESTMENT_THRESHOLD then a.commission_rate + DYNAMIC_ADJUSTMENT_RATE
      else a.commission_rate - DYNAMIC_ADJUSTMENT_RATE
    { a with commission_rate := max COMMISSION_RATE_MIN (min r COMMISSION_RATE_MAX) }
  else a

/- ## Simulation engine (src/simulation.py) -/

/-- Engine computations thread the draw counter and may abort with an
unhandled exception (the engine catches nothing). -/
def EngineM (α : Type) : Type := ℕ → Except Err (α × ℕ)

def epure {α : Type} (a : α) : EngineM α := fun k => .ok (a, k)

def ebind {α β : Type} (x : EngineM α) (f : α → EngineM β) : EngineM β := fun k =>
  match x k with
  | .error e => .error e
  | .ok (a, k') => f a k'

def efail {α : Type} (e : Err) : EngineM α := fun _ => .error e

def liftE {α : Type} (x : Except Err α) : EngineM α := fun k => x.map (fun a => (a, k))

/-- `np.random.randint(lo, hi)` / `np.random.choice(n)`: an integer draw
constrained to the half-open range, raising on an empty range. -/
def drawNat (o : RandOracle) : EngineM ℕ := fun k => .ok (o.nats k, k + 1)

def randintBetween (o : RandOracle) (lo hi : ℕ) : EngineM ℕ :=
  ebind (drawNat o) (fun v => if hi ≤ lo then efail .emptyRandRange else epure (lo + v % (hi - lo)))

def randBelow (o : RandOracle) (n : ℕ) : EngineM ℕ :=
  ebind (drawNat o) (fun v => if n = 0 then efail .emptyRandRange else epure (v % n))

def drawRand (o : RandOracle) : EngineM ℚ := fun k => .ok (randVal o k, k + 1)

def drawUniform (o : RandOracle) (lo hi : ℚ) : EngineM ℚ := fun k =>
  .ok (uniformVal o k lo hi, k + 1)

/- ### Wallet dictionary operations -/

/-- `wallet.get(name, 0)`. -/
def walletGet (w : List (String × ℚ)) (name : String) : ℚ :=
  match w.find? (fun p => p.1 == name) with
  | some p => p.2
  | none => 0

/-- `wallet[name] = v`, inserting at the end on a missing key. -/
def walletSet : List (String × ℚ) → String → ℚ → List (String × ℚ)
  | [], name, v => [(name, v)]
  | p :: rest, name, v =>
      if p.1 = name then (name, v) :: rest else p :: walletSet rest name v

/-- `wallet[name] -= amt`, raising `KeyError` on a missing key. -/
def walletDec : List (String × ℚ) → String → ℚ → Except Err (List (String × ℚ))
  | [], _, _ => .error .keyNotFound
  | p :: rest, name, amt =>
      if p.1 = name then .ok ((name, p.2 - amt) :: rest)
      else (walletDec rest name amt).map (fun w => p :: w)

/- ### Trading helpers -/

/-- `_buy_token`. -/
def buy_token (env : CurveEnv) (o : RandOracle) (token : Token) (affiliate : Affiliate)
    (tokens_to_trade cost : ℚ) : EngineM (Token × Affiliate) := fun k =>
  match Token.buy env o token tokens_to_trade k with
  | .error (e, _) => .error e
  | .ok ((t', _), k') =>
      let a1 : Affiliate := { affiliate with
        base_currency_balance := affiliate.base_currency_balance - cost
        wallet := walletSet affiliate.wallet token.name
          (walletGet affiliate.wallet token.name + tokens_to_trade) }
      match a1.track_referral cost with
      | .error e => .error e
      | .ok a2 => .ok ((t', a2), k')

/-- `_sell_token`: the amount actually sold is `min(tokens_to_trade,
tokens_available)` — a request above the wallet holding is clamped, and a
non-positive clamped amount skips the trade entirely. -/
def sell_token (env : CurveEnv) (o : RandOracle) (token : Token) (affiliate : Affiliate)
    (tokens_to_trade : ℚ) : EngineM (Token × Affiliate) := fun k =>
  let tokens_available := walletGet affiliate.wallet token.name
  let tokens_to_sell := min tokens_to_trade tokens_available
  if 0 < tokens_to_sell then
    match Token.sell env o token tokens_to_sell k with
    | .error (e, _) => .error e
    | .ok ((t', token_price), k') =>
        match walletDec affiliate.wallet token.name tokens_to_sell with
        | .error e => .error e
        | .ok w' =>
            let sale_proceeds := token_price * tokens_to_sell
            let a1 : Affiliate := { affiliate with
              wallet := w'
              base_currency_balance := affiliate.base_currency_balance + sale_proceeds }
            match a1.track_referral sale_proceeds with
            | .error e => .error e
            | .ok a2 => .ok ((t', a2), k')
  else .ok ((token, affiliate), k)

/-- One transaction of the `for _ in range(num_transactions)` loop in
`_process_affiliate_trades`.  A non-positive token price `continue`s,
skipping the recent-investment append. -/
def tradeOnce (env : CurveEnv) (o : RandOracle) (params_initial_token_investment : ℚ)
    (st : Affiliate × List Token) : EngineM (Affiliate × List Token) :=
  let affiliate := st.1
  let tokens := st.2
  ebind (randBelow o tokens.length) fun random_token_index =>
  let token := tokens.getD random_token_index default
  ebind
    (if affiliate.is_whale ∧ 0 < affiliate.whale_investment_capacity then
      ebind (drawUniform o (1/10) (4/10)) fun u => epure (affiliate.whale_investment_capacity * u)
    else
      ebind (drawRand o) fun r => epure (params_initial_token_investment + r * 5))
    fun invest_amount =>
  let token_price := token.price
  if 0 < token_price then
    let tokens_to_trade := invest_amount / token_price
    ebind (drawRand o) fun br =>
    ebind
      (if br < BUY_PROBABILITY then
        let cost := tokens_to_trade * token_price
        if cost ≤ affiliate.base_currency_balance then
          ebind (buy_token env o token affiliate tokens_to_trade cost) fun ta =>
            epure (ta.2, tokens.set random_token_index ta.1)
        else epure (affiliate, tokens)
      else
        ebind (sell_token env o token affiliate tokens_to_trade) fun ta =>
          epure (ta.2, tokens.set random_token_index ta.1))
      fun st1 =>
    let recent1 := st1.1.recent_investment ++ [invest_amount]
    let recent2 := if MOVING_AVERAGE_WINDOW < recent1.length then recent1.tail else recent1
    epure ({ st1.1 with recent_investment := recent2 }, st1.2)
  else epure (affiliate, tokens)

def iterateTrades (env : CurveEnv) (o : RandOracle) (inv : ℚ) :
    ℕ → Affiliate × List Token → EngineM (Affiliate × List Token)
  | 0, st => epure st
  | n + 1, st => ebind (tradeOnce env o inv st) (iterateTrades env o inv n)

/-- `_process_affiliate_trades`. -/
def process_affiliate_trades (env : CurveEnv) (o : RandOracle) (affiliate : Affiliate)
    (tokens : List Token) (inv : ℚ) : EngineM (Affiliate × List Token) :=
  ebind (if ¬ affiliate.is_whale then randintBetween o 1 3 else randintBetween o 0 2)
    fun num_transactions =>
  iterateTrades env o inv num_transactions (affiliate, tokens)

/- ### Token maintenance phase -/

/-- `_update_tokens`: per token `i`, a family change when
`step % intervals[i] == 0` (an out-of-range `i` is an `IndexError`, a
zero interval a `ZeroDivisionError`), then a parameter change when
`step % param_change_interval == 0`. -/
def updateTokensAux (step : ℕ) (intervals : List ℕ) (pci : ℕ) :
    ℕ → List Token → Except Err (List Token)
  | _, [] => .ok []
  | i, t :: rest =>
      if i < intervals.length then
        let interval := intervals.getD i 0
        if interval = 0 then .error .moduloByZero
        else
          match (if step % interval = 0 then t.change_bonding_curve else .ok t) with
          | .error e => .error e
          | .ok t1 =>
              if pci = 0 then .error .moduloByZero
              else
                let t2 := if step % pci = 0 then t1.change_bonding_curve_parameters else t1
                (updateTokensAux step intervals pci (i + 1) rest).map (fun ts => t2 :: ts)
      else .error .indexOutOfRange

def update_tokens (tokens : List Token) (step : ℕ) (intervals : List ℕ) (pci : ℕ) :
    Except Err (List Token) :=
  updateTokensAux step intervals pci 0 tokens

/- ### Per-step phases -/

def processAllAffiliates (env : CurveEnv) (o : RandOracle) (inv : ℚ) :
    List Affiliate → List Token → EngineM (List Token × List Affiliate)
  | [], tokens => epure (tokens, [])
  | a :: rest, tokens =>
      ebind (process_affiliate_trades env o a tokens inv) fun pr =>
      ebind (processAllAffiliates env o inv rest pr.2) fun pr2 =>
      epure (pr2.1, pr.1 :: pr2.2)

/-- `token_simulation_step`. -/
def token_simulation_step (env : CurveEnv) (o : RandOracle) (step : ℕ)
    (tokens : List Token) (affiliates : List Affiliate) (inv : ℚ)
    (intervals : List ℕ) (pci : ℕ) : EngineM (List Token × List Affiliate) :=
  ebind (processAllAffiliates env o inv affiliates tokens) fun pr =>
  ebind (liftE (update_tokens pr.1 step intervals pci)) fun ts =>
  epure (ts, pr.2)

/-- One wallet key of the periodic-sell loop in
`affiliate_simulation_step`; `rand()` is drawn only when the holding is
positive, and the inner token search takes the first name match. -/
def periodicSellKey (env : CurveEnv) (o : RandOracle) (st : Affiliate × List Token)
    (token_name : String) : EngineM (Affiliate × List Token) :=
  let affiliate := st.1
  let tokens := st.2
  if 0 < walletGet affiliate.wallet token_name then
    ebind (drawRand o) fun r =>
    if r < SELL_PROBABILITY then
      ebind (drawRand o) fun r2 =>
      let tokens_to_sell_percentage := r2 * MAX_SELL_PERCENTAGE
      let tokens_to_sell := walletGet affiliate.wallet token_name * tokens_to_sell_percentage
      match tokens.findIdx? (fun t => t.name == token_name) with
      | none => epure (affiliate, tokens)
      | some i =>
          let token := tokens.getD i default
          fun k =>
            match Token.sell env o token tokens_to_sell k with
            | .error (e, _) => .error e
            | .ok ((t', token_price), k') =>
                match walletDec affiliate.wallet token_name tokens_to_sell with
                | .error e => .error e
                | .ok w' =>
                    let sale_proceeds := token_price * tokens_to_sell
                    let a1 : Affiliate := { affiliate with
                      wallet := w'
                      base_currency_balance := affiliate.base_currency_balance + sale_proceeds }
                    match a1.track_referral sale_proceeds with
                    | .error e => .error e
                    | .ok a2 => .ok ((a2, tokens.set i t'), k')
    else epure (affiliate, tokens)
  else epure (affiliate, tokens)

def periodicSellKeys (env : CurveEnv) (o : RandOracle) :
    List String → Affiliate × List Token → EngineM (Affiliate × List Token)
  | [], st => epure st
  | key :: keys, st => ebind (periodicSellKey env o st key) (periodicSellKeys env o keys)

/-- `affiliate_simulation_step`: periodic sells over a snapshot of the
wallet keys, then the per-entity history appends, then the commission
adjustment. -/
def affiliate_simulation_step (env : CurveEnv) (o : RandOracle) (step : ℕ) :
    List Affiliate → List Token → EngineM (List Token × List Affiliate)
  | [], tokens => epure (tokens, [])
  | a :: rest, tokens =>
      ebind (periodicSellKeys env o (a.wallet.map Prod.fst) (a, tokens)) fun pr =>
      let a1 := pr.1
      let a2 : Affiliate := { a1 with
        earnings_history := a1.earnings_history ++ [a1.total_earned]
        commission_rate_history := a1.commission_rate_history ++ [a1.commission_rate] }
      let a3 := a2.adjust_commission_dynamically step
      ebind (affiliate_simulation_step env o step rest pr.2) fun pr2 =>
      epure (pr2.1, a3 :: pr2.2)

/- ### Histories and the run loop -/

structure TokenHistory where
  price : List ℚ
  supply : List ℚ
  bonding_curve : List String
deriving DecidableEq, Repr

structure AffiliateHistory where
  earned : List ℚ
  commission_rate : List ℚ
  wallet : List (List (String × ℚ))
  base_currency_balance : List ℚ
deriving DecidableEq, Repr

/-- The parameters read from the `params` dict by `run_simulation`,
`_process_affiliate_trades` and `_update_tokens`. -/
structure SimParams where
  num_simulation_steps : ℕ
  num_tokens : ℕ
  num_affiliates : ℕ
  initial_supply : ℚ
  initial_price : ℚ
  initial_commission_rate : ℚ
  param_change_interval : ℕ
  initial_token_investment : ℚ
deriving DecidableEq, Repr

/-- Dictionary-style update of the first entry with the given key,
raising `KeyError` when absent. -/
def updateByKey {κ β : Type} [DecidableEq κ] :
    List (κ × β) → κ → (β → β) → Except Err (List (κ × β))
  | [], _, _ => .error .keyNotFound
  | p :: rest, key, f =>
      if p.1 = key then .ok ((key, f p.2) :: rest)
      else (updateByKey rest key f).map (fun l => p :: l)

/-- The per-step token history capture in `run_simulation`. -/
def captureTokens : List Token → List (String × TokenHistory) →
    Except Err (List (String × TokenHistory))
  | [], th => .ok th
  | t :: rest, th =>
      match updateByKey th t.name (fun h =>
        ⟨h.price ++ [t.price], h.supply ++ [t.supply],
         h.bonding_curve ++ [t.bonding_curve_func.pyName]⟩) with
      | .error e => .error e
      | .ok th' => captureTokens rest th'

/-- The per-step affiliate history capture in `run_simulation` (the
wallet series stores a copy of the current wallet dict). -/
def captureAffiliates : List Affiliate → List (ℤ × AffiliateHistory) →
    Except Err (List (ℤ × AffiliateHistory))
  | [], ah => .ok ah
  | a :: rest, ah =>
      match updateByKey ah a.affiliate_id (fun h =>
        ⟨h.earned ++ [a.total_earned], h.commission_rate ++ [a.commission_rate],
         h.wallet ++ [a.wallet],
         h.base_currency_balance ++ [a.base_currency_balance]⟩) with
      | .error e => .error e
      | .ok ah' => captureAffiliates rest ah'

/-- The token-construction comprehension of `run_simulation`: token `i`
is named `Token_{i}` and gets a uniformly chosen module-level curve. -/
def createTokensAux (o : RandOracle) (params : SimParams) : ℕ → ℕ → EngineM (List Token)
  | _, 0 => epure []
  | i, n + 1 =>
      ebind (randBelow o bondingCurveFamilies.length) fun c =>
      let f := CurveFunc.base (bondingCurveFamilies.getD c .linear)
      ebind (liftE (Token.init ("Token_" ++ toString i) params.initial_supply
        params.initial_price f)) fun t =>
      ebind (createTokensAux o params (i + 1) n) fun ts =>
      epure (t :: ts)

/-- The affiliate-construction comprehension of `run_simulation`:
affiliate `i` is a whale exactly when `i < num_affiliates // 5`. -/
def createAffiliatesAux (o : RandOracle) (params : SimParams) : ℕ → ℕ → EngineM (List Affiliate)
  | _, 0 => epure []
  | i, n + 1 =>
      ebind (fun k => Affiliate.init o (i : ℤ) params.initial_commission_rate
        (decide (i < params.num_affiliates / 5)) k) fun a =>
      ebind (createAffiliatesAux o params (i + 1) n) fun as_ =>
      epure (a :: as_)

def initTokenHistories (tokens : List Token) : List (String × TokenHistory) :=
  tokens.map (fun t => (t.name, ⟨[], [], []⟩))

def initAffiliateHistories (affiliates : List Affiliate) : List (ℤ × AffiliateHistory) :=
  affiliates.map (fun a => (a.affiliate_id, ⟨[], [], [], []⟩))

/-- The `for step in range(num_simulation_steps)` loop of
`run_simulation`: token phase, affiliate phase, then both history
captures, once per step. -/
def simLoop (env : CurveEnv) (o : RandOracle) (params : SimParams) (intervals : List ℕ) :
    ℕ → ℕ → List Token × List Affiliate →
    List (String × TokenHistory) × List (ℤ × AffiliateHistory) →
    EngineM (List (String × TokenHistory) × List (ℤ × AffiliateHistory))
  | _, 0, _, hist => epure hist
  | step, n + 1, st, hist =>
      ebind (token_simulation_step env o step st.1 st.2 params.initial_token_investment
        intervals params.param_change_interval) fun st1 =>
      ebind (affiliate_simulation_step env o step st1.2 st1.1) fun st2 =>
      ebind (liftE (captureTokens st2.1 hist.1)) fun th =>
      ebind (liftE (captureAffiliates st2.2 hist.2)) fun ah =>
      simLoop env o params intervals (step + 1) n (st2.1, st2.2) (th, ah)

/-- `run_simulation`.  `intervals` is the module-level
`bonding_curve_change_intervals` array (drawn before the run from
ambient randomness). -/
def run_simulation (env : CurveEnv) (o : RandOracle) (params : SimParams)
    (intervals : List ℕ) :
    EngineM (List (String × TokenHistory) × List (ℤ × AffiliateHistory)) :=
  ebind (createTokensAux o params 0 params.num_tokens) fun tokens =>
  ebind (createAffiliatesAux o params 0 params.num_affiliates) fun affiliates =>
  simLoop env o params intervals 0 params.num_simulation_steps (tokens, affiliates)
    (initTokenHistories tokens, initAffiliateHistories affiliates)

/- ## Operation harnesses used to quantify over call sequences -/

/-- A sequence of `adjust_commission_dynamically` calls: each call sees
some step number and some then-current contents of the
recent-investment window. -/
def applyAdjustCalls (a : Affiliate) (calls : List (ℕ × List ℚ)) : Affiliate :=
  calls.foldl (fun acc c =>
    Affiliate.adjust_commission_dynamically { acc with recent_investment := c.2 } c.1) a

/-- The four state-mutating operations of `Token`. -/
inductive TokenOp : Type
  | buy (amount : ℚ)
  | sell (amount : ℚ)
  | changeCurve
  | changeParams
deriving DecidableEq, Repr

def TokenOp.isTrade : TokenOp → Bool
  | .buy _ => true
  | .sell _ => true
  | .changeCurve => false
  | .changeParams => false

def applyOp (env : CurveEnv) (o : RandOracle) (t : Token) :
    TokenOp → ℕ → Except Err (Token × ℕ)
  | .buy amount, k =>
      match Token.buy env o t amount k with
      | .error (e, _) => .error e
      | .ok ((t', _), k') => .ok (t', k')
  | .sell amount, k =>
      match Token.sell env o t amount k with
      | .error (e, _) => .error e
      | .ok ((t', _), k') => .ok (t', k')
  | .changeCurve, k => (t.change_bonding_curve).map (fun t' => (t', k))
  | .changeParams, k => .ok (t.change_bonding_curve_parameters, k)

def applyOps (env : CurveEnv) (o : RandOracle) :
    List TokenOp → Token → ℕ → Except Err (Token × ℕ)
  | [], t, k => .ok (t, k)
  | op :: ops, t, k =>
      match applyOp env o t op k with
      | .error e => .error e
      | .ok (t', k') => applyOps env o ops t' k'

/- ## Concrete instances for witnesses and counterexamples -/

/-- Concrete interpretation of the transcendental helpers. -/
def envC : CurveEnv := ⟨fun _ => 1, fun _ => 0⟩

/-- Concrete random stream. -/
def oracleC : RandOracle := ⟨fun _ => 0, fun _ => 1/2⟩

/-- A token as built by `Token("Token_0", 10000, 1.0, linear_bonding_curve)`. -/
def tokLin : Token :=
  { name := "Token_0"
    supply := 10000
    price := 1
    bonding_curve_func := .base .linear
    transaction_fee_rate := TRANSACTION_FEE_RATE
    burn_rate := BURN_RATE
    curve_metadata := ⟨"linear_bonding_curve", false⟩ }

/-- An affiliate holding 5 units of `Token_0`. -/
def affC : Affiliate :=
  { affiliate_id := 0
    commission_rate := (10/100)
    is_whale := false
    base_currency_balance := 1000
    wallet := [("Token_0", 5)]
    total_referral_amount := 0
    total_earned := 0
    earnings_history := []
    commission_rate_history := []
    recent_investment := []
    whale_investment_capacity := 0 }

/-- A freshly constructed non-whale affiliate (the `.ok` payload of
`Affiliate.init oracleC 0 (10/100) false`). -/
def affInitC : Affiliate :=
  { affiliate_id := 0
    commission_rate := (10/100)
    is_whale := false
    base_currency_balance := 1000
    wallet := []
    total_referral_amount := 0
    total_earned := 0
    earnings_history := []
    commission_rate_history := []
    recent_investment := []
    whale_investment_capacity := 0 }

/-- C2 instance: the state after requesting to sell 10 while holding
only 5 — exactly the held 5 are traded. -/
def tokAfterC2 : Token :=
  { tokLin with supply := (19990027/2000), price := (21990027/2000000) }

def affAfterC2 : Affiliate :=
  { affC with
    wallet := [("Token_0", 0)]
    base_currency_balance := (421990027/400000)
    total_referral_amount := (21990027/400000)
    total_earned := (21990027/4000000) }

/-- C3 instance: the token state after `buy(100)` from supply 10000. -/
def tokBuy100 : Token :=
  { tokLin with supply := (1009973/100), price := (1109973/100000) }

/-- C3 instance: the token state after then selling the exact post-fee
residual `100·(1 − fee − burn) = 99.73`: the supply ends strictly above
the pre-buy 10000. -/
def tokRoundTrip : Token :=
  { tokLin with supply := (10000269271/1000000), price := (11000269271/1000000000) }

/-- C1 instance: a token constructed with supply 0 and price 5. -/
def tokC1 : Token :=
  match Token.init "T" 0 5 (.base .linear) with
  | .ok t => t
  | .error _ => default

/-- C8 instance: a 1-step, 1-token, 1-affiliate configuration. -/
def paramsC : SimParams :=
  { num_simulation_steps := 1
    num_tokens := 1
    num_affiliates := 1
    initial_supply := 10000
    initial_price := 1
    initial_commission_rate := (10/100)
    param_change_interval := 20
    initial_token_investment := 10 }

/-- A random stream whose uniform draws all clamp to 1 (every trade
lands in the sell branch, keeping the concrete run small). -/
def oracleOne : RandOracle := ⟨fun _ => 0, fun _ => 1⟩

/-- The token histories produced by the 1-step run. -/
def thC8 : List (String × TokenHistory) :=
  [("Token_0", ⟨[1], [10000], ["<lambda>"]⟩)]

/-- The affiliate histories produced by the 1-step run. -/
def ahC8 : List (ℤ × AffiliateHistory) :=
  [(0, ⟨[0], [(199/2000)], [[]], [1000]⟩)]

/-- C10 instance: token state after `_buy_token` of quantity 10 at
price 1 from supply 10000. -/
def tokBuyTok10 : Token :=
  { tokLin with supply := (10009973/1000), price := (11009973/1000000) }

/-- C10 instance: the affiliate after that buy — the wallet is credited
the full 10, the balance debited the full cost 10. -/
def affBuyTok10 : Affiliate :=
  { affC with
    base_currency_balance := 990
    wallet := [("Token_0", 15)]
    total_referral_amount := 10
    total_earned := 1 }

/-- C6 instance: the operation sequence buy, sell, curve change,
parameter change. -/
def opsC6 : List TokenOp := [.buy 100, .sell 50, .changeCurve, .changeParams]

/-- C6 instance: the token state after `buy(100)` then `sell(50)`. -/
def tokMid : Token :=
  { tokLin with supply := (2009973/200), price := (2209973/200000) }

/-- C6 instance: `tokMid` after a curve-family change. -/
def tokMidExp : Token :=
  { tokMid with
    bonding_curve_func := .base .exponential
    curve_metadata := ⟨"exponential_bonding_curve", false⟩ }

/-- C6 instance: the token state after `opsC6` from `tokLin`. -/
def tokC6 : Token :=
  { name := "Token_0"
    supply := (2009973/200)
    price := (2209973/200000)
    bonding_curve_func := .lam .exponential
    transaction_fee_rate := TRANSACTION_FEE_RATE
    burn_rate := BURN_RATE
    curve_metadata := ⟨"exponential_bonding_curve", true⟩ }

/- ## Decimal decoding, for distinctness of the generated token names -/

def decDigit (c : Char) : ℕ := c.toNat - 48

def decDigits (l : List Char) : ℕ := l.foldl (fun a c => a * 10 + decDigit c) 0

/-- History-length predicates used by the run-loop invariant. -/
def thLens (s : ℕ) (th : List (String × TokenHistory)) : Prop :=
  ∀ p ∈ th, p.2.price.length = s ∧ p.2.supply.length = s ∧ p.2.bonding_curve.length = s

def ahLens (s : ℕ) (ah : List (ℤ × AffiliateHistory)) : Prop :=
  ∀ p ∈ ah, p.2.earned.length = s ∧ p.2.commission_rate.length = s ∧
    p.2.wallet.length = s ∧ p.2.base_currency_balance.length = s

/-- A token whose fee saturates the trade (for exercising the
fee-exhausted no-op branch, which the constants of the repository keep
unreachable). -/
def tokFeeOne : Token :=
  { tokLin with transaction_fee_rate := 1, burn_rate := 0 }

/-- Decidable equality of exception results, for evaluating concrete
runs inside proofs. -/
instance {ε α : Type} [DecidableEq ε] [DecidableEq α] : DecidableEq (Except ε α) := fun x y =>
  match x, y with
  | .error a, .error b =>
      if h : a = b then isTrue (by rw [h])
      else isFalse (fun hc => h (Except.error.inj hc))
  | .ok a, .ok b =>
      if h : a = b then isTrue (by rw [h])
      else isFalse (fun hc => h (Except.ok.inj hc))
  | .error _, .ok _ => isFalse (fun hc => Except.noConfusion hc)
  | .ok _, .error _ => isFalse (fun hc => Except.noConfusion hc)

/- # Theorems -/

/- ## Basic facts about the token operations -/

theorem buy_ok_cases (env : CurveEnv) (o : RandOracle) (t : Token) (amount : ℚ) (k : ℕ)
    (t' : Token) (p : ℚ) (k' : ℕ)
    (h : Token.buy env o t amount k = .ok ((t', p), k')) :
    t'.name = t.name ∧ t'.bonding_curve_func = t.bonding_curve_func ∧
    t'.transaction_fee_rate = t.transaction_fee_rate ∧ t'.burn_rate = t.burn_rate ∧
    ((t' = t ∧ amount - amount * t.transaction_fee_rate - amount * t.burn_rate ≤ 0) ∨
      (0 < amount ∧
      0 < amount - amount * t.transaction_fee_rate - amount * t.burn_rate ∧
      t'.supply = t.supply + (amount - amount * t.transaction_fee_rate - amount * t.burn_rate))) := by
  simp only [Token.buy] at h
  split at h
  · exact absurd h (by simp)
  · next hle =>
    split at h
    · simp only [Except.ok.injEq, Prod.mk.injEq] at h
      obtain ⟨⟨ht, hp⟩, hk⟩ := h
      subst ht
      next hnoop => exact ⟨rfl, rfl, rfl, rfl, Or.inl ⟨rfl, hnoop⟩⟩
    · next hpos =>
      split at h
      · exact absurd h (by simp)
      · next p0 k0 heq =>
        simp only [Except.ok.injEq, Prod.mk.injEq] at h
        obtain ⟨⟨ht, hp⟩, hk⟩ := h
        subst ht
        exact ⟨rfl, rfl, rfl, rfl, Or.inr ⟨not_le.mp hle, not_le.mp hpos, rfl⟩⟩

theorem sell_ok_cases (env : CurveEnv) (o : RandOracle) (t : Token) (amount : ℚ) (k : ℕ)
    (t' : Token) (p : ℚ) (k' : ℕ)
    (h : Token.sell env o t amount k = .ok ((t', p), k')) :
    t'.name = t.name ∧ t'.bonding_curve_func = t.bonding_curve_func ∧
    t'.transaction_fee_rate = t.transaction_fee_rate ∧ t'.burn_rate = t.burn_rate ∧
    ((t' = t ∧ amount - amount * t.transaction_fee_rate - amount * t.burn_rate ≤ 0) ∨
      (0 < amount ∧ amount ≤ t.supply ∧
      0 < amount - amount * t.transaction_fee_rate - amount * t.burn_rate ∧
      t'.supply = t.supply - (amount - amount * t.transaction_fee_rate - amount * t.burn_rate))) := by
  simp only [Token.sell] at h
  split at h
  · exact absurd h (by simp)
  · next hle =>
    split at h
    · exact absurd h (by simp)
    · next hsup =>
      split at h
      · simp only [Except.ok.injEq, Prod.mk.injEq] at h
        obtain ⟨⟨ht, hp⟩, hk⟩ := h
        subst ht
        next hnoop => exact ⟨rfl, rfl, rfl, rfl, Or.inl ⟨rfl, hnoop⟩⟩
      · next hpos =>
        split at h
        · exact absurd h (by simp)
        · next p0 k0 heq =>
          simp only [Except.ok.injEq, Prod.mk.injEq] at h
          obtain ⟨⟨ht, hp⟩, hk⟩ := h
          subst ht
          exact ⟨rfl, rfl, rfl, rfl,
            Or.inr ⟨not_le.mp hle, not_lt.mp hsup, not_le.mp hpos, rfl⟩⟩

/- ## Commission-rate bounds -/

theorem adjust_commission_preserves_bounds (a : Affiliate) (step : ℕ)
    (h1 : 0 ≤ a.commission_rate) (h2 : a.commission_rate ≤ 20/100) :
    0 ≤ (a.adjust_commission_dynamically step).commission_rate ∧
    (a.adjust_commission_dynamically step).commission_rate ≤ (20/100) := by
  unfold Affiliate.adjust_commission_dynamically
  split
  · dsimp only
    constructor
    · norm_num [COMMISSION_RATE_MIN, le_max_iff]
    · norm_num [COMMISSION_RATE_MIN, COMMISSION_RATE_MAX, max_le_iff, min_le_iff]
  · exact ⟨h1, h2⟩

theorem applyAdjustCalls_bounds (calls : List (ℕ × List ℚ)) (a : Affiliate)
    (h1 : 0 ≤ a.commission_rate) (h2 : a.commission_rate ≤ 20/100) :
    0 ≤ (applyAdjustCalls a calls).commission_rate ∧
    (applyAdjustCalls a calls).commission_rate ≤ (20/100) := by
  induction calls generalizing a with
  | nil => exact ⟨h1, h2⟩
  | cons c cs ih =>
    have hstep := adjust_commission_preserves_bounds
      { a with recent_investment := c.2 } c.1 h1 h2
    exact ih _ hstep.1 hstep.2

/-- C5: an affiliate constructed with an initial commission rate in
[0.0, (20/100)] keeps its commission rate within [0.0, (20/100)] after any number
of `adjust_commission_dynamically` calls, for any step values and any
contents of the recent-investment window. -/
theorem commission_rate_stays_bounded (o : RandOracle) (id : ℤ) (r : ℚ) (w : Bool)
    (k k' : ℕ) (a : Affiliate) (calls : List (ℕ × List ℚ))
    (hinit : Affiliate.init o id r w k = .ok (a, k')) :
    0 ≤ (applyAdjustCalls a calls).commission_rate ∧
    (applyAdjustCalls a calls).commission_rate ≤ (20/100) := by
  have hrate : a.commission_rate = r ∧ 0 ≤ r ∧ r ≤ (20/100) := by
    simp only [Affiliate.init] at hinit
    split at hinit
    · exact absurd hinit (by simp)
    · split at hinit
      · exact absurd hinit (by simp)
      · next hb =>
        rw [not_not] at hb
        simp only [Except.ok.injEq, Prod.mk.injEq] at hinit
        obtain ⟨ha, _⟩ := hinit
        subst ha
        simp only [COMMISSION_RATE_MIN, COMMISSION_RATE_MAX] at hb
        exact ⟨rfl, by linarith [hb.1], by linarith [hb.2]⟩
  exact applyAdjustCalls_bounds calls a (hrate.1 ▸ hrate.2.1) (hrate.1 ▸ hrate.2.2)

/-- C5 witness. -/
theorem commission_rate_stays_bounded_witness :
    0 ≤ (applyAdjustCalls affInitC [(0, [100]), (10, []), (3, [60])]).commission_rate ∧
    (applyAdjustCalls affInitC [(0, [100]), (10, []), (3, [60])]).commission_rate ≤ (20/100) :=
  commission_rate_stays_bounded oracleC 0 (10/100) false 0 0 affInitC
    [(0, [100]), (10, []), (3, [60])] (by with_unfolding_all decide)

/- ## Validation-error atomicity and the buy contract -/

/-- C9: when `buy` or `sell` raises a validation error (non-positive
amount, or a sell amount exceeding the current supply), the token state
carried at raise time is exactly the pre-call state: supply and price
are unchanged. -/
theorem buy_sell_validation_atomic (env : CurveEnv) (o : RandOracle) (t : Token)
    (amount : ℚ) (k : ℕ) :
    (amount ≤ 0 → Token.buy env o t amount k = .error (.buyAmountNotPositive, t)) ∧
    (amount ≤ 0 → Token.sell env o t amount k = .error (.sellAmountNotPositive, t)) ∧
    (0 < amount → t.supply < amount →
      Token.sell env o t amount k = .error (.sellAmountExceedsSupply, t)) := by
  refine ⟨fun h => ?_, fun h => ?_, fun h1 h2 => ?_⟩
  · simp only [Token.buy, if_pos h]
  · simp only [Token.sell, if_pos h]
  · simp only [Token.sell, if_neg (not_le.mpr h1)]
    rw [if_pos h2]

/-- C9 witness. -/
theorem buy_sell_validation_atomic_witness :
    Token.buy envC oracleC tokLin (-3) 0 = .error (.buyAmountNotPositive, tokLin) ∧
    Token.sell envC oracleC tokLin (-3) 0 = .error (.sellAmountNotPositive, tokLin) ∧
    Token.sell envC oracleC tokLin 20000 0 = .error (.sellAmountExceedsSupply, tokLin) :=
  ⟨(buy_sell_validation_atomic envC oracleC tokLin (-3) 0).1 (by norm_num),
   (buy_sell_validation_atomic envC oracleC tokLin (-3) 0).2.1 (by norm_num),
   (buy_sell_validation_atomic envC oracleC tokLin 20000 0).2.2 (by norm_num)
     (by with_unfolding_all decide)⟩

/-- C7: `buy(amount)` raises on `amount ≤ 0`; with a positive amount
whose post-fee/burn residual is non-positive it is a no-op returning the
unchanged current price; otherwise it adds exactly the residual to the
supply, recomputes the price from the bonding curve at the new supply,
and returns that new price. -/
theorem buy_functional_cases (env : CurveEnv) (o : RandOracle) (t : Token)
    (amount : ℚ) (k : ℕ) :
    (amount ≤ 0 → Token.buy env o t amount k = .error (.buyAmountNotPositive, t)) ∧
    (0 < amount → amount * (1 - t.transaction_fee_rate - t.burn_rate) ≤ 0 →
      Token.buy env o t amount k = .ok ((t, t.price), k)) ∧
    (∀ p k', 0 < amount → 0 < amount * (1 - t.transaction_fee_rate - t.burn_rate) →
      evalCurveFunc env o t.bonding_curve_func
        (t.supply + amount * (1 - t.transaction_fee_rate - t.burn_rate)) k = .ok (p, k') →
      Token.buy env o t amount k =
        .ok (({ t with
            supply := t.supply + amount * (1 - t.transaction_fee_rate - t.burn_rate),
            price := p }, p), k')) := by
  have hres : amount - amount * t.transaction_fee_rate - amount * t.burn_rate =
      amount * (1 - t.transaction_fee_rate - t.burn_rate) := by ring
  refine ⟨fun h => ?_, fun h1 h2 => ?_, fun p k' h1 h2 heval => ?_⟩
  · simp only [Token.buy, if_pos h]
  · simp only [Token.buy, hres]
    rw [if_neg (not_le.mpr h1), if_pos h2]
  · simp only [Token.buy, Token.calculate_price, hres]
    rw [if_neg (not_le.mpr h1), if_neg (not_le.mpr h2)]
    simp only [heval]

/-- C7 witness. -/
theorem buy_functional_cases_witness :
    Token.buy envC oracleC tokLin (-1) 0 = .error (.buyAmountNotPositive, tokLin) ∧
    Token.buy envC oracleC tokFeeOne 5 0 = .ok ((tokFeeOne, tokFeeOne.price), 0) ∧
    Token.buy envC oracleC tokLin 100 0 =
      .ok (({ tokLin with
          supply := tokLin.supply + 100 * (1 - tokLin.transaction_fee_rate - tokLin.burn_rate),
          price := (1109973/100000 : ℚ) }, (1109973/100000 : ℚ)), 0) :=
  ⟨(buy_functional_cases envC oracleC tokLin (-1) 0).1 (by norm_num),
   (buy_functional_cases envC oracleC tokFeeOne 5 0).2.1 (by norm_num)
     (by with_unfolding_all decide),
   (buy_functional_cases envC oracleC tokLin 100 0).2.2 (1109973/100000) 0 (by norm_num)
     (by with_unfolding_all decide)
     (by norm_num [evalCurveFunc, evalCurveParams, defaultCurveParams, tokLin,
       TRANSACTION_FEE_RATE, BURN_RATE, Except.map])⟩

theorem change_bonding_curve_ok (t t' : Token)
    (h : t.change_bonding_curve = .ok t') :
    t'.name = t.name ∧ t'.supply = t.supply ∧ t'.price = t.price ∧
    t'.transaction_fee_rate = t.transaction_fee_rate ∧ t'.burn_rate = t.burn_rate := by
  unfold Token.change_bonding_curve at h
  split at h
  · exact absurd h (by simp)
  · simp only [Except.ok.injEq] at h
    subst h
    exact ⟨rfl, rfl, rfl, rfl, rfl⟩

theorem change_bonding_curve_parameters_fields (t : Token) :
    (t.change_bonding_curve_parameters).name = t.name ∧
    (t.change_bonding_curve_parameters).supply = t.supply ∧
    (t.change_bonding_curve_parameters).price = t.price ∧
    (t.change_bonding_curve_parameters).transaction_fee_rate = t.transaction_fee_rate ∧
    (t.change_bonding_curve_parameters).burn_rate = t.burn_rate := by
  unfold Token.change_bonding_curve_parameters
  split <;> exact ⟨rfl, rfl, rfl, rfl, rfl⟩

theorem track_referral_ok (a a' : Affiliate) (amt : ℚ)
    (h : a.track_referral amt = .ok a') :
    a'.affiliate_id = a.affiliate_id ∧ a'.wallet = a.wallet ∧
    a'.base_currency_balance = a.base_currency_balance ∧
    a'.commission_rate = a.commission_rate ∧
    a'.recent_investment = a.recent_investment ∧
    a'.is_whale = a.is_whale ∧
    a'.whale_investment_capacity = a.whale_investment_capacity ∧
    a'.earnings_history = a.earnings_history ∧
    a'.commission_rate_history = a.commission_rate_history := by
  unfold Affiliate.track_referral at h
  split at h
  · exact absurd h (by simp)
  · simp only [Except.ok.injEq] at h
    subst h
    exact ⟨rfl, rfl, rfl, rfl, rfl, rfl, rfl, rfl, rfl⟩

theorem walletGet_walletSet_self (w : List (String × ℚ)) (n : String) (v : ℚ) :
    walletGet (walletSet w n v) n = v := by
  induction w with
  | nil => simp [walletSet, walletGet, List.find?]
  | cons p rest ih =>
    by_cases h : p.1 = n
    · simp [walletSet, h, walletGet, List.find?]
    · have hb : (p.1 == n) = false := beq_eq_false_iff_ne.mpr h
      simp only [walletSet, if_neg h]
      simpa [walletGet, List.find?, hb] using ih

/- ## Closed-form success equations for mutating trades -/

theorem buy_mutation_eq (env : CurveEnv) (o : RandOracle) (t : Token) (amount : ℚ)
    (k : ℕ) (p : ℚ) (k' : ℕ)
    (h1 : 0 < amount)
    (h2 : 0 < amount - amount * t.transaction_fee_rate - amount * t.burn_rate)
    (heval : evalCurveFunc env o t.bonding_curve_func
      (t.supply + (amount - amount * t.transaction_fee_rate - amount * t.burn_rate)) k =
      .ok (p, k')) :
    Token.buy env o t amount k =
      .ok (({ t with
        supply := t.supply + (amount - amount * t.transaction_fee_rate - amount * t.burn_rate),
        price := p }, p), k') := by
  simp only [Token.buy, Token.calculate_price]
  rw [if_neg (not_le.mpr h1), if_neg (not_le.mpr h2)]
  simp only [heval]

theorem sell_mutation_eq (env : CurveEnv) (o : RandOracle) (t : Token) (amount : ℚ)
    (k : ℕ) (p : ℚ) (k' : ℕ)
    (h1 : 0 < amount) (h3 : amount ≤ t.supply)
    (h2 : 0 < amount - amount * t.transaction_fee_rate - amount * t.burn_rate)
    (heval : evalCurveFunc env o t.bonding_curve_func
      (t.supply - (amount - amount * t.transaction_fee_rate - amount * t.burn_rate)) k =
      .ok (p, k')) :
    Token.sell env o t amount k =
      .ok (({ t with
        supply := t.supply - (amount - amount * t.transaction_fee_rate - amount * t.burn_rate),
        price := p }, p), k') := by
  simp only [Token.sell, Token.calculate_price]
  rw [if_neg (not_le.mpr h1), if_neg (not_lt.mpr h3), if_neg (not_le.mpr h2)]
  simp only [heval]

/-- Evaluation of `buy(100)` on the concrete linear token. -/
theorem buy100_eval :
    Token.buy envC oracleC tokLin 100 0 = .ok ((tokBuy100, ((1109973/100000))), 0) := by
  have h := buy_mutation_eq envC oracleC tokLin 100 0 ((1109973/100000)) 0 (by norm_num)
    (by norm_num [tokLin, TRANSACTION_FEE_RATE, BURN_RATE])
    (by norm_num [evalCurveFunc, evalCurveParams, defaultCurveParams, tokLin,
      TRANSACTION_FEE_RATE, BURN_RATE, Except.map])
  rw [h]
  norm_num [tokLin, tokBuy100, TRANSACTION_FEE_RATE, BURN_RATE]

/-- Evaluation of the follow-up sell of the exact post-fee residual. -/
theorem sell_residual_eval :
    Token.sell envC oracleC tokBuy100
      (100 * (1 - tokLin.transaction_fee_rate - tokLin.burn_rate)) 0 =
      .ok ((tokRoundTrip, ((11000269271/1000000000))), 0) := by
  have h := sell_mutation_eq envC oracleC tokBuy100
    (100 * (1 - tokLin.transaction_fee_rate - tokLin.burn_rate)) 0
    ((11000269271/1000000000)) 0
    (by norm_num [tokLin, TRANSACTION_FEE_RATE, BURN_RATE])
    (by norm_num [tokLin, tokBuy100, TRANSACTION_FEE_RATE, BURN_RATE])
    (by norm_num [tokLin, tokBuy100, TRANSACTION_FEE_RATE, BURN_RATE])
    (by norm_num [evalCurveFunc, evalCurveParams, defaultCurveParams, tokLin, tokBuy100,
      TRANSACTION_FEE_RATE, BURN_RATE, Except.map])
  rw [h]
  norm_num [tokLin, tokBuy100, tokRoundTrip, TRANSACTION_FEE_RATE, BURN_RATE]

/- ## Price/curve synchronisation (C1) -/

/-- C1 counterexample: a `Token` constructed with supply 0 and price 5
stores the caller-provided price, while its linear curve evaluates to 1
at supply 0 — so `price = curve(supply)` does not hold immediately after
construction. -/
theorem price_curve_sync_counterexample :
    (Token.init "T" 0 5 (.base .linear)).isOk = true ∧
    tokC1.price = 5 ∧
    evalCurveFunc envC oracleC tokC1.bonding_curve_func tokC1.supply 0 = .ok (1, 0) ∧
    tokC1.price ≠ 1 := by
  refine ⟨by with_unfolding_all decide, by with_unfolding_all decide,
    by with_unfolding_all decide, by with_unfolding_all decide⟩

/-- C1 (amended): `price = curve(supply)` holds immediately after a buy
or sell that changes the supply (the stored price is exactly the curve
evaluated at the new supply, and is also the returned price); but
construction stores the caller-provided initial price without
recomputation, and curve change / curve-parameter change leave the
stored price and supply untouched, so the stored price can go stale
there. -/
theorem price_curve_sync_amended (env : CurveEnv) (o : RandOracle) (t : Token)
    (amount : ℚ) (k : ℕ) :
    (∀ t' p k', Token.buy env o t amount k = .ok ((t', p), k') → t'.supply ≠ t.supply →
      evalCurveFunc env o t.bonding_curve_func t'.supply k = .ok (t'.price, k') ∧
      p = t'.price) ∧
    (∀ t' p k', Token.sell env o t amount k = .ok ((t', p), k') → t'.supply ≠ t.supply →
      evalCurveFunc env o t.bonding_curve_func t'.supply k = .ok (t'.price, k') ∧
      p = t'.price) ∧
    (∀ t', t.change_bonding_curve = .ok t' → t'.price = t.price ∧ t'.supply = t.supply) ∧
    ((t.change_bonding_curve_parameters).price = t.price ∧
      (t.change_bonding_curve_parameters).supply = t.supply) := by
  refine ⟨fun t' p k' h hne => ?_, fun t' p k' h hne => ?_, fun t' h => ?_, ?_⟩
  · simp only [Token.buy] at h
    split at h
    · exact absurd h (by simp)
    · split at h
      · simp only [Except.ok.injEq, Prod.mk.injEq] at h
        obtain ⟨⟨ht, hp⟩, hk⟩ := h
        exact absurd (ht ▸ rfl) hne
      · split at h
        · exact absurd h (by simp)
        · next p0 k0 heq =>
          simp only [Except.ok.injEq, Prod.mk.injEq] at h
          obtain ⟨⟨ht, hp⟩, hk⟩ := h
          subst ht hk
          simp only [Token.calculate_price] at heq
          exact ⟨heq, hp.symm⟩
  · simp only [Token.sell] at h
    split at h
    · exact absurd h (by simp)
    · split at h
      · exact absurd h (by simp)
      · split at h
        · simp only [Except.ok.injEq, Prod.mk.injEq] at h
          obtain ⟨⟨ht, hp⟩, hk⟩ := h
          exact absurd (ht ▸ rfl) hne
        · split at h
          · exact absurd h (by simp)
          · next p0 k0 heq =>
            simp only [Except.ok.injEq, Prod.mk.injEq] at h
            obtain ⟨⟨ht, hp⟩, hk⟩ := h
            subst ht hk
            simp only [Token.calculate_price] at heq
            exact ⟨heq, hp.symm⟩
  · have hc := change_bonding_curve_ok t t' h
    exact ⟨hc.2.2.1, hc.2.1⟩
  · have hc := change_bonding_curve_parameters_fields t
    exact ⟨hc.2.2.1, hc.2.1⟩

/-- C1 witness (for the amended theorem). -/
theorem price_curve_sync_amended_witness :
    evalCurveFunc envC oracleC tokLin.bonding_curve_func tokBuy100.supply 0 =
      .ok (tokBuy100.price, 0) ∧ ((1109973/100000 : ℚ)) = tokBuy100.price :=
  (price_curve_sync_amended envC oracleC tokLin 100 0).1 tokBuy100 ((1109973/100000)) 0
    buy100_eval (by norm_num [tokBuy100, tokLin])

/- ## Curve cycling after a parameter-only change (C4) -/

/-- C4: from a state produced by a parameter-only change (the installed
lambda is not a member of `bonding_curve_functions`), `change_bonding_curve`
raises `ValueError` from `list.index` instead of cycling to the next
family — the engine calls it unconditionally on its schedule, so a long
enough run crashes here. -/
theorem change_curve_after_param_change_raises :
    (tokLin.change_bonding_curve_parameters).curve_metadata.function_name =
      "linear_bonding_curve" ∧
    Token.change_bonding_curve tokLin.change_bonding_curve_parameters =
      .error .curveFuncNotInList := by
  constructor
  · with_unfolding_all decide
  · with_unfolding_all decide

/- ## Clamping in the affiliate-initiated sell path (C2) -/

/-- C2 counterexample: requesting to sell 10 while the wallet holds only
5 does NOT fail — `_sell_token` silently clamps to the held 5, returns
success, and empties the wallet entry. -/
theorem sell_token_clamp_counterexample :
    walletGet affC.wallet tokLin.name < 10 ∧
    sell_token envC oracleC tokLin affC 10 0 = .ok ((tokAfterC2, affAfterC2), 0) ∧
    walletGet affAfterC2.wallet tokLin.name = 0 := by
  refine ⟨by with_unfolding_all decide, ?_, by with_unfolding_all decide⟩
  have hs := sell_mutation_eq envC oracleC tokLin 5 0 ((21990027/2000000)) 0
    (by norm_num)
    (by norm_num [tokLin])
    (by norm_num [tokLin, TRANSACTION_FEE_RATE, BURN_RATE])
    (by norm_num [evalCurveFunc, evalCurveParams, defaultCurveParams, tokLin,
      TRANSACTION_FEE_RATE, BURN_RATE, Except.map])
  simp only [sell_token]
  norm_num [walletGet, affC, tokLin, List.find?]
  simp only [tokLin] at hs
  rw [hs]
  norm_num [walletDec, affC, tokLin, Affiliate.track_referral, Affiliate.calculate_commission,
    tokAfterC2, affAfterC2, TRANSACTION_FEE_RATE, BURN_RATE]

/-- C2 (amended): in the affiliate-initiated sell path of the trading
phase, a requested sell quantity at or above the current wallet holding
is silently clamped to the held quantity via `min` — the call behaves
exactly as a request for the held quantity, raising no error for the
excess (and skipping the trade entirely when the clamped quantity is not
positive). -/
theorem sell_token_clamps (env : CurveEnv) (o : RandOracle) (token : Token)
    (affiliate : Affiliate) (q : ℚ)
    (h : walletGet affiliate.wallet token.name ≤ q) :
    sell_token env o token affiliate q =
      sell_token env o token affiliate (walletGet affiliate.wallet token.name) := by
  funext k
  simp only [sell_token, min_eq_right h, min_self]

/-- C2 witness (for the amended theorem). -/
theorem sell_token_clamps_witness :
    sell_token envC oracleC tokLin affC 10 =
      sell_token envC oracleC tokLin affC (walletGet affC.wallet tokLin.name) :=
  sell_token_clamps envC oracleC tokLin affC 10 (by with_unfolding_all decide)

/- ## The buy-then-sell round trip (C3) -/

/-- C3 counterexample: buying 100 and then selling the exact post-fee
residual 99.73 leaves the supply at 10000.269271 — strictly GREATER than
the pre-buy 10000, not strictly less as claimed. -/
theorem round_trip_counterexample :
    Token.buy envC oracleC tokLin 100 0 = .ok ((tokBuy100, ((1109973/100000))), 0) ∧
    Token.sell envC oracleC tokBuy100
      (100 * (1 - tokLin.transaction_fee_rate - tokLin.burn_rate)) 0 =
      .ok ((tokRoundTrip, ((11000269271/1000000000))), 0) ∧
    tokLin.supply = 10000 ∧ tokRoundTrip.supply = ((10000269271/1000000)) ∧
    ¬ (tokRoundTrip.supply < tokLin.supply) := by
  refine ⟨buy100_eval, sell_residual_eval, by norm_num [tokLin], by norm_num [tokRoundTrip], ?_⟩
  norm_num [tokRoundTrip, tokLin]

/-- C3 (amended): for a token whose combined fee and burn rates lie
strictly between 0 and 1, buying `X > 0` and then selling the exact
post-fee/burn residual `X·(1 − fee − burn)` leaves the supply strictly
GREATER than the pre-buy supply (the sell removes only the residual of
the residual; fees/burn are non-refundable in both directions). -/
theorem round_trip_supply_increases (env : CurveEnv) (o : RandOracle) (t : Token)
    (X : ℚ) (k k1 k2 : ℕ) (t1 t2 : Token) (p1 p2 : ℚ)
    (hX : 0 < X)
    (hfb0 : 0 < t.transaction_fee_rate + t.burn_rate)
    (hfb1 : t.transaction_fee_rate + t.burn_rate < 1)
    (hbuy : Token.buy env o t X k = .ok ((t1, p1), k1))
    (hsell : Token.sell env o t1 (X * (1 - t.transaction_fee_rate - t.burn_rate)) k1 =
      .ok ((t2, p2), k2)) :
    t.supply < t2.supply := by
  obtain ⟨-, -, hf1, hb1, hcase⟩ := buy_ok_cases env o t X k t1 p1 k1 hbuy
  have hres : 0 < X - X * t.transaction_fee_rate - X * t.burn_rate := by nlinarith
  rcases hcase with ⟨-, hle⟩ | ⟨-, -, hsup1⟩
  · exact absurd hle (not_le.mpr hres)
  obtain ⟨-, -, hf2, hb2, hcase2⟩ :=
    sell_ok_cases env o t1 (X * (1 - t.transaction_fee_rate - t.burn_rate)) k1 t2 p2 k2 hsell
  have hR : 0 < X * (1 - t.transaction_fee_rate - t.burn_rate) := by nlinarith
  have hres2 : 0 < X * (1 - t.transaction_fee_rate - t.burn_rate) -
      X * (1 - t.transaction_fee_rate - t.burn_rate) * t1.transaction_fee_rate -
      X * (1 - t.transaction_fee_rate - t.burn_rate) * t1.burn_rate := by
    rw [hf1, hb1]
    nlinarith
  rcases hcase2 with ⟨-, hle2⟩ | ⟨-, -, -, hsup2⟩
  · exact absurd hle2 (not_le.mpr hres2)
  rw [hsup2, hsup1, hf1, hb1]
  nlinarith [mul_pos hR hfb0]

/-- C3 witness (for the amended theorem). -/
theorem round_trip_supply_increases_witness : tokLin.supply < tokRoundTrip.supply :=
  round_trip_supply_increases envC oracleC tokLin 100 0 0 0 tokBuy100 tokRoundTrip
    ((1109973/100000)) ((11000269271/1000000000))
    (by norm_num)
    (by norm_num [tokLin, TRANSACTION_FEE_RATE, BURN_RATE])
    (by norm_num [tokLin, TRANSACTION_FEE_RATE, BURN_RATE])
    buy100_eval sell_residual_eval

/- ## Trading-phase buy accounting (C10) -/

/-- C10: a trading-phase buy of quantity `q` at price `p` credits the
affiliate's wallet with the full `q` and debits the balance by exactly
`q·p`, while the token's supply grows only by `q·(1 − fee − burn)`; the
wallet credit strictly exceeds the supply growth, so wallet holdings are
not reduced by fee or burn. -/
theorem buy_token_accounting (env : CurveEnv) (o : RandOracle) (token : Token)
    (affiliate : Affiliate) (q : ℚ) (k k' : ℕ) (t' : Token) (a' : Affiliate)
    (hq : 0 < q)
    (hfb1 : token.transaction_fee_rate + token.burn_rate < 1)
    (hfb0 : 0 < token.transaction_fee_rate + token.burn_rate)
    (hrun : buy_token env o token affiliate q (q * token.price) k = .ok ((t', a'), k')) :
    walletGet a'.wallet token.name = walletGet affiliate.wallet token.name + q ∧
    a'.base_currency_balance = affiliate.base_currency_balance - q * token.price ∧
    t'.supply = token.supply + q * (1 - token.transaction_fee_rate - token.burn_rate) ∧
    q * (1 - token.transaction_fee_rate - token.burn_rate) < q := by
  simp only [buy_token] at hrun
  split at hrun
  · exact absurd hrun (by simp)
  · next tb pb kb heqb =>
    split at hrun
    · exact absurd hrun (by simp)
    · next a2 heqt =>
      simp only [Except.ok.injEq, Prod.mk.injEq] at hrun
      obtain ⟨⟨ht, ha⟩, hk⟩ := hrun
      subst ht ha
      obtain ⟨-, -, -, -, hcase⟩ := buy_ok_cases env o token q k tb pb kb heqb
      have hres : 0 < q - q * token.transaction_fee_rate - q * token.burn_rate := by nlinarith
      have htrack := track_referral_ok _ a2 (q * token.price) heqt
      refine ⟨?_, ?_, ?_, by nlinarith⟩
      · rw [htrack.2.1]
        exact walletGet_walletSet_self affiliate.wallet token.name
          (walletGet affiliate.wallet token.name + q)
      · rw [htrack.2.2.1]
      · rcases hcase with ⟨-, hle⟩ | ⟨-, -, hsup⟩
        · exact absurd hle (not_le.mpr hres)
        · rw [hsup]; ring

/-- C10 witness. -/
theorem buy_token_accounting_witness :
    walletGet affBuyTok10.wallet tokLin.name = walletGet affC.wallet tokLin.name + 10 ∧
    affBuyTok10.base_currency_balance = affC.base_currency_balance - 10 * tokLin.price ∧
    tokBuyTok10.supply =
      tokLin.supply + 10 * (1 - tokLin.transaction_fee_rate - tokLin.burn_rate) ∧
    10 * (1 - tokLin.transaction_fee_rate - tokLin.burn_rate) < 10 := by
  have hb := buy_mutation_eq envC oracleC tokLin 10 0 ((11009973/1000000)) 0 (by norm_num)
    (by norm_num [tokLin, TRANSACTION_FEE_RATE, BURN_RATE])
    (by norm_num [evalCurveFunc, evalCurveParams, defaultCurveParams, tokLin,
      TRANSACTION_FEE_RATE, BURN_RATE, Except.map])
  refine buy_token_accounting envC oracleC tokLin affC 10 0 0 tokBuyTok10 affBuyTok10
    (by norm_num)
    (by norm_num [tokLin, TRANSACTION_FEE_RATE, BURN_RATE])
    (by norm_num [tokLin, TRANSACTION_FEE_RATE, BURN_RATE]) ?_
  simp only [buy_token]
  simp only [tokLin] at hb
  norm_num [tokLin]
  rw [hb]
  norm_num [walletGet, walletSet, affC, Affiliate.track_referral,
    Affiliate.calculate_commission, List.find?, tokBuyTok10, affBuyTok10, tokLin,
    TRANSACTION_FEE_RATE, BURN_RATE]

/- ## Supply non-negativity and exclusivity of mutation (C6) -/

theorem applyOp_preserves (env : CurveEnv) (o : RandOracle) (t : Token) (op : TokenOp)
    (k : ℕ) (t' : Token) (k' : ℕ)
    (h : applyOp env o t op k = .ok (t', k'))
    (hs : 0 ≤ t.supply) (hf : 0 ≤ t.transaction_fee_rate) (hb : 0 ≤ t.burn_rate) :
    0 ≤ t'.supply ∧ t'.transaction_fee_rate = t.transaction_fee_rate ∧
    t'.burn_rate = t.burn_rate ∧ (op.isTrade = false → t'.supply = t.supply) := by
  cases op with
  | buy amount =>
    simp only [applyOp] at h
    split at h
    · exact absurd h (by simp)
    · next tb pb kb heq =>
      simp only [Except.ok.injEq, Prod.mk.injEq] at h
      obtain ⟨ht, hk⟩ := h
      subst ht
      obtain ⟨-, -, hfe, hbe, hcase⟩ := buy_ok_cases env o t amount k tb pb kb heq
      refine ⟨?_, hfe, hbe, fun hfalse => by simp [TokenOp.isTrade] at hfalse⟩
      rcases hcase with ⟨hteq, -⟩ | ⟨hpos, hres, hsup⟩
      · rw [hteq]; exact hs
      · rw [hsup]; linarith
  | sell amount =>
    simp only [applyOp] at h
    split at h
    · exact absurd h (by simp)
    · next tb pb kb heq =>
      simp only [Except.ok.injEq, Prod.mk.injEq] at h
      obtain ⟨ht, hk⟩ := h
      subst ht
      obtain ⟨-, -, hfe, hbe, hcase⟩ := sell_ok_cases env o t amount k tb pb kb heq
      refine ⟨?_, hfe, hbe, fun hfalse => by simp [TokenOp.isTrade] at hfalse⟩
      rcases hcase with ⟨hteq, -⟩ | ⟨hpos, hle, hres, hsup⟩
      · rw [hteq]; exact hs
      · rw [hsup]
        have h1 : 0 ≤ amount * t.transaction_fee_rate := mul_nonneg (le_of_lt hpos) hf
        have h2 : 0 ≤ amount * t.burn_rate := mul_nonneg (le_of_lt hpos) hb
        linarith
  | changeCurve =>
    simp only [applyOp] at h
    cases hc : t.change_bonding_curve with
    | error e => rw [hc] at h; exact absurd h (by simp [Except.map])
    | ok tc =>
      rw [hc] at h
      simp only [Except.map, Except.ok.injEq, Prod.mk.injEq] at h
      obtain ⟨ht, hk⟩ := h
      subst ht
      obtain ⟨-, hsup, -, hfe, hbe⟩ := change_bonding_curve_ok t tc hc
      exact ⟨hsup ▸ hs, hfe, hbe, fun _ => hsup⟩
  | changeParams =>
    simp only [applyOp, Except.ok.injEq, Prod.mk.injEq] at h
    obtain ⟨ht, hk⟩ := h
    subst ht
    obtain ⟨-, hsup, -, hfe, hbe⟩ := change_bonding_curve_parameters_fields t
    exact ⟨hsup ▸ hs, hfe, hbe, fun _ => hsup⟩

theorem applyOps_preserves (env : CurveEnv) (o : RandOracle) (ops : List TokenOp) :
    ∀ (t : Token) (k : ℕ) (t' : Token) (k' : ℕ),
    applyOps env o ops t k = .ok (t', k') →
    0 ≤ t.supply → 0 ≤ t.transaction_fee_rate → 0 ≤ t.burn_rate →
    0 ≤ t'.supply ∧ t'.transaction_fee_rate = t.transaction_fee_rate ∧
    t'.burn_rate = t.burn_rate ∧
    ((∀ op ∈ ops, op.isTrade = false) → t'.supply = t.supply) := by
  induction ops with
  | nil =>
    intro t k t' k' h hs hf hb
    simp only [applyOps, Except.ok.injEq, Prod.mk.injEq] at h
    obtain ⟨ht, hk⟩ := h
    subst ht
    exact ⟨hs, rfl, rfl, fun _ => rfl⟩
  | cons op ops ih =>
    intro t k t' k' h hs hf hb
    simp only [applyOps] at h
    split at h
    · exact absurd h (by simp)
    · next t1 k1 heq =>
      obtain ⟨hs1, hf1, hb1, hkeep1⟩ := applyOp_preserves env o t op k t1 k1 heq hs hf hb
      obtain ⟨hs2, hf2, hb2, hkeep2⟩ := ih t1 k1 t' k' h hs1 (hf1 ▸ hf) (hb1 ▸ hb)
      refine ⟨hs2, hf2.trans hf1, hb2.trans hb1, fun hnone => ?_⟩
      have h1 := hkeep1 (hnone op (List.mem_cons_self op ops))
      have h2 := hkeep2 (fun op2 hm => hnone op2 (List.mem_cons_of_mem op hm))
      rw [h2, h1]

/-- C6: a token constructed with a non-negative initial supply keeps a
non-negative supply across every sequence of the four mutating
operations that completes without raising, and a sequence containing no
buy or sell leaves the supply exactly unchanged. -/
theorem supply_nonneg_invariant (env : CurveEnv) (o : RandOracle) (nm : String)
    (s0 p0 : ℚ) (f : CurveFunc) (ops : List TokenOp) (t t' : Token) (k k' : ℕ)
    (hinit : Token.init nm s0 p0 f = .ok t)
    (hops : applyOps env o ops t k = .ok (t', k')) :
    0 ≤ t'.supply ∧ ((∀ op ∈ ops, op.isTrade = false) → t'.supply = t.supply) := by
  have hfields : t.supply = s0 ∧ ¬ s0 < 0 ∧
      t.transaction_fee_rate = TRANSACTION_FEE_RATE ∧ t.burn_rate = BURN_RATE := by
    simp only [Token.init] at hinit
    split at hinit
    · exact absurd hinit (by simp)
    · next hs0 =>
      split at hinit
      · exact absurd hinit (by simp)
      · simp only [Except.ok.injEq] at hinit
        subst hinit
        exact ⟨rfl, hs0, rfl, rfl⟩
  obtain ⟨hsup, hs0, hfr, hbr⟩ := hfields
  have h := applyOps_preserves env o ops t k t' k' hops
    (by rw [hsup]; exact not_lt.mp hs0)
    (by rw [hfr]; norm_num [TRANSACTION_FEE_RATE])
    (by rw [hbr]; norm_num [BURN_RATE])
  exact ⟨h.1, h.2.2.2⟩

/-- Evaluation of `sell(50)` on the post-buy token. -/
theorem sell50_eval :
    Token.sell envC oracleC tokBuy100 50 0 = .ok ((tokMid, ((2209973/200000))), 0) := by
  have h := sell_mutation_eq envC oracleC tokBuy100 50 0 ((2209973/200000)) 0
    (by norm_num)
    (by norm_num [tokBuy100, tokLin])
    (by norm_num [tokBuy100, tokLin, TRANSACTION_FEE_RATE, BURN_RATE])
    (by norm_num [evalCurveFunc, evalCurveParams, defaultCurveParams, tokBuy100, tokLin,
      TRANSACTION_FEE_RATE, BURN_RATE, Except.map])
  rw [h]
  norm_num [tokBuy100, tokMid, tokLin, TRANSACTION_FEE_RATE, BURN_RATE]

/-- Evaluation of the curve-family change on `tokMid`: linear cycles to
exponential. -/
theorem changeCurve_tokMid :
    Token.change_bonding_curve tokMid = .ok tokMidExp := rfl

/-- Evaluation of the whole C6 operation sequence. -/
theorem applyOps_C6_eval : applyOps envC oracleC opsC6 tokLin 0 = .ok (tokC6, 0) := by
  simp only [opsC6, applyOps, applyOp, buy100_eval, sell50_eval, changeCurve_tokMid,
    Except.map]
  rfl

/-- C6 witness. -/
theorem supply_nonneg_invariant_witness :
    0 ≤ tokC6.supply ∧ ((∀ op ∈ opsC6, op.isTrade = false) → tokC6.supply = tokLin.supply) :=
  supply_nonneg_invariant envC oracleC "Token_0" 10000 1 (.base .linear) opsC6 tokLin tokC6
    0 0 (by norm_num [Token.init, tokLin, CurveFunc.pyName, familyPyName]) applyOps_C6_eval

/- ## Injectivity of the decimal name suffix -/

theorem toDigitsCore_append (fuel : ℕ) :
    ∀ (n : ℕ) (ds : List Char),
    Nat.toDigitsCore 10 fuel n ds = Nat.toDigitsCore 10 fuel n [] ++ ds := by
  induction fuel with
  | zero => intro n ds; simp [Nat.toDigitsCore]
  | succ fuel ih =>
    intro n ds
    simp only [Nat.toDigitsCore]
    split
    · simp
    · rw [ih (n / 10) [Nat.digitChar (n % 10)],
        ih (n / 10) (Nat.digitChar (n % 10) :: ds), List.append_assoc]
      rfl

theorem digitChar_toNat (m : ℕ) (h : m < 10) : (Nat.digitChar m).toNat = 48 + m := by
  interval_cases m <;> decide

theorem decDigits_append (l : List Char) (c : Char) :
    decDigits (l ++ [c]) = decDigits l * 10 + decDigit c := by
  simp [decDigits, List.foldl_append]

theorem decDigits_toDigitsCore (fuel : ℕ) :
    ∀ n : ℕ, n < fuel → decDigits (Nat.toDigitsCore 10 fuel n []) = n := by
  induction fuel with
  | zero => intro n h; omega
  | succ fuel ih =>
    intro n h
    simp only [Nat.toDigitsCore]
    split
    · next h0 =>
      have hn : n < 10 := by omega
      simp [decDigits, decDigit, digitChar_toNat (n % 10) (Nat.mod_lt _ (by norm_num))]
      omega
    · next h0 =>
      rw [toDigitsCore_append fuel (n / 10) [Nat.digitChar (n % 10)], decDigits_append]
      have hlt : n / 10 < fuel := by
        have h1 : n / 10 < n := Nat.div_lt_self (by omega) (by norm_num)
        omega
      rw [ih (n / 10) hlt, decDigit, digitChar_toNat (n % 10) (Nat.mod_lt _ (by norm_num))]
      omega

theorem natRepr_injective : Function.Injective Nat.repr := by
  intro a b h
  have ha : decDigits (Nat.toDigitsCore 10 (a + 1) a []) = a :=
    decDigits_toDigitsCore (a + 1) a (Nat.lt_succ_self a)
  have hb : decDigits (Nat.toDigitsCore 10 (b + 1) b []) = b :=
    decDigits_toDigitsCore (b + 1) b (Nat.lt_succ_self b)
  have hdata : Nat.toDigitsCore 10 (a + 1) a [] = Nat.toDigitsCore 10 (b + 1) b [] := by
    have h2 := congrArg String.data h
    simpa [Nat.repr, Nat.toDigits, List.asString] using h2
  rw [← ha, ← hb, hdata]

theorem tokenName_injective (i j : ℕ)
    (h : "Token_" ++ toString i = "Token_" ++ toString j) : i = j := by
  have h2 := congrArg String.data h
  simp only [String.data_append] at h2
  have h3 : (toString i).data = (toString j).data := List.append_cancel_left h2
  have h4 : toString i = toString j := by
    cases hti : toString i with
    | mk di =>
      cases htj : toString j with
      | mk dj =>
        rw [hti, htj] at h3
        exact congrArg String.mk (by simpa using h3)
  exact natRepr_injective h4

/- ## Dictionary-update and capture lemmas -/

theorem updateByKey_keys {κ β : Type} [DecidableEq κ] (l : List (κ × β)) :
    ∀ (key : κ) (f : β → β) (l' : List (κ × β)),
    updateByKey l key f = .ok l' → l'.map Prod.fst = l.map Prod.fst := by
  induction l with
  | nil => intro key f l' h; exact absurd h (by simp [updateByKey])
  | cons p rest ih =>
    intro key f l' h
    simp only [updateByKey] at h
    split at h
    · next heq =>
      simp only [Except.ok.injEq] at h
      subst h
      simp [heq]
    · cases hrec : updateByKey rest key f with
      | error e => rw [hrec] at h; exact absurd h (by simp [Except.map])
      | ok l1 =>
        rw [hrec] at h
        simp only [Except.map, Except.ok.injEq] at h
        subst h
        simp [ih key f l1 hrec]

theorem updateByKey_head {κ β : Type} [DecidableEq κ] (key : κ) (h₀ : β)
    (rest : List (κ × β)) (f : β → β) :
    updateByKey ((key, h₀) :: rest) key f = .ok ((key, f h₀) :: rest) := by
  simp [updateByKey]

theorem updateByKey_cons_ne {κ β : Type} [DecidableEq κ] (p : κ × β) (rest : List (κ × β))
    (key : κ) (f : β → β) (hne : p.1 ≠ key) :
    updateByKey (p :: rest) key f = (updateByKey rest key f).map (fun l => p :: l) := by
  simp [updateByKey, hne]

theorem captureTokens_cons_untouched (ts : List Token) :
    ∀ (n₀ : String) (h₀ : TokenHistory) (th₀ out : List (String × TokenHistory)),
    n₀ ∉ ts.map Token.name →
    captureTokens ts ((n₀, h₀) :: th₀) = .ok out →
    ∃ th₁, out = (n₀, h₀) :: th₁ ∧ captureTokens ts th₀ = .ok th₁ := by
  induction ts with
  | nil =>
    intro n₀ h₀ th₀ out hni h
    simp only [captureTokens, Except.ok.injEq] at h
    exact ⟨th₀, h.symm, rfl⟩
  | cons t ts ih =>
    intro n₀ h₀ th₀ out hni h
    have hne : n₀ ≠ t.name := by
      intro hc
      exact hni (by simp [hc])
    have hni2 : n₀ ∉ ts.map Token.name := fun hc => hni (by simp [hc])
    simp only [captureTokens] at h
    rw [updateByKey_cons_ne (n₀, h₀) th₀ t.name _ hne] at h
    cases hrec : updateByKey th₀ t.name
        (fun h => ⟨h.price ++ [t.price], h.supply ++ [t.supply],
          h.bonding_curve ++ [t.bonding_curve_func.pyName]⟩) with
    | error e => rw [hrec] at h; exact absurd h (by simp [Except.map])
    | ok l1 =>
      rw [hrec] at h
      simp only [Except.map] at h
      obtain ⟨th₁, hout, hcap⟩ := ih n₀ h₀ l1 out hni2 h
      refine ⟨th₁, hout, ?_⟩
      simp only [captureTokens, hrec]
      exact hcap

theorem captureTokens_ok (ts : List Token) :
    ∀ (th th' : List (String × TokenHistory)) (s : ℕ),
    th.map Prod.fst = ts.map Token.name →
    (ts.map Token.name).Nodup →
    thLens s th →
    captureTokens ts th = .ok th' →
    th'.map Prod.fst = th.map Prod.fst ∧ thLens (s + 1) th' := by
  induction ts with
  | nil =>
    intro th th' s hkeys hnd hlen h
    simp only [captureTokens, Except.ok.injEq] at h
    subst h
    have : th = [] := by
      cases th with
      | nil => rfl
      | cons p r => simp at hkeys
    subst this
    exact ⟨rfl, by intro p hp; simp at hp⟩
  | cons t ts ih =>
    intro th th' s hkeys hnd hlen h
    cases th with
    | nil => simp at hkeys
    | cons p th₀ =>
      obtain ⟨hp1, hkeys0⟩ : p.1 = t.name ∧ th₀.map Prod.fst = ts.map Token.name := by
        simpa using hkeys
      obtain ⟨hnotin, hnd2⟩ : t.name ∉ ts.map Token.name ∧ (ts.map Token.name).Nodup := by
        simpa using hnd
      obtain ⟨n₀, h₀⟩ := p
      simp only at hp1
      subst hp1
      simp only [captureTokens, updateByKey_head] at h
      obtain ⟨th₁, hout, hcap⟩ := captureTokens_cons_untouched ts t.name _ th₀ th' hnotin h
      obtain ⟨hkeys1, hlen1⟩ := ih th₀ th₁ s hkeys0 hnd2
        (fun q hq => hlen q (List.mem_cons_of_mem _ hq)) hcap
      subst hout
      constructor
      · simp [hkeys1]
      · intro q hq
        rcases List.mem_cons.mp hq with hq1 | hq2
        · subst hq1
          have hh := hlen (t.name, h₀) (List.mem_cons_self _ _)
          simp only at hh ⊢
          simp [hh.1, hh.2.1, hh.2.2]
        · exact hlen1 q hq2

theorem captureAffiliates_cons_untouched (as_ : List Affiliate) :
    ∀ (n₀ : ℤ) (h₀ : AffiliateHistory) (ah₀ out : List (ℤ × AffiliateHistory)),
    n₀ ∉ as_.map Affiliate.affiliate_id →
    captureAffiliates as_ ((n₀, h₀) :: ah₀) = .ok out →
    ∃ ah₁, out = (n₀, h₀) :: ah₁ ∧ captureAffiliates as_ ah₀ = .ok ah₁ := by
  induction as_ with
  | nil =>
    intro n₀ h₀ ah₀ out hni h
    simp only [captureAffiliates, Except.ok.injEq] at h
    exact ⟨ah₀, h.symm, rfl⟩
  | cons a as_ ih =>
    intro n₀ h₀ ah₀ out hni h
    have hne : n₀ ≠ a.affiliate_id := by
      intro hc
      exact hni (by simp [hc])
    have hni2 : n₀ ∉ as_.map Affiliate.affiliate_id := fun hc => hni (by simp [hc])
    simp only [captureAffiliates] at h
    rw [updateByKey_cons_ne (n₀, h₀) ah₀ a.affiliate_id _ hne] at h
    cases hrec : updateByKey ah₀ a.affiliate_id
        (fun h => ⟨h.earned ++ [a.total_earned], h.commission_rate ++ [a.commission_rate],
          h.wallet ++ [a.wallet],
          h.base_currency_balance ++ [a.base_currency_balance]⟩) with
    | error e => rw [hrec] at h; exact absurd h (by simp [Except.map])
    | ok l1 =>
      rw [hrec] at h
      simp only [Except.map] at h
      obtain ⟨ah₁, hout, hcap⟩ := ih n₀ h₀ l1 out hni2 h
      refine ⟨ah₁, hout, ?_⟩
      simp only [captureAffiliates, hrec]
      exact hcap

theorem captureAffiliates_ok (as_ : List Affiliate) :
    ∀ (ah ah' : List (ℤ × AffiliateHistory)) (s : ℕ),
    ah.map Prod.fst = as_.map Affiliate.affiliate_id →
    (as_.map Affiliate.affiliate_id).Nodup →
    ahLens s ah →
    captureAffiliates as_ ah = .ok ah' →
    ah'.map Prod.fst = ah.map Prod.fst ∧ ahLens (s + 1) ah' := by
  induction as_ with
  | nil =>
    intro ah ah' s hkeys hnd hlen h
    simp only [captureAffiliates, Except.ok.injEq] at h
    subst h
    have : ah = [] := by
      cases ah with
      | nil => rfl
      | cons p r => simp at hkeys
    subst this
    exact ⟨rfl, by intro p hp; simp at hp⟩
  | cons a as_ ih =>
    intro ah ah' s hkeys hnd hlen h
    cases ah with
    | nil => simp at hkeys
    | cons p ah₀ =>
      obtain ⟨hp1, hkeys0⟩ : p.1 = a.affiliate_id ∧
          ah₀.map Prod.fst = as_.map Affiliate.affiliate_id := by
        simpa using hkeys
      obtain ⟨hnotin, hnd2⟩ : a.affiliate_id ∉ as_.map Affiliate.affiliate_id ∧
          (as_.map Affiliate.affiliate_id).Nodup := by
        simpa using hnd
      obtain ⟨n₀, h₀⟩ := p
      simp only at hp1
      subst hp1
      simp only [captureAffiliates, updateByKey_head] at h
      obtain ⟨ah₁, hout, hcap⟩ :=
        captureAffiliates_cons_untouched as_ a.affiliate_id _ ah₀ ah' hnotin h
      obtain ⟨hkeys1, hlen1⟩ := ih ah₀ ah₁ s hkeys0 hnd2
        (fun q hq => hlen q (List.mem_cons_of_mem _ hq)) hcap
      subst hout
      constructor
      · simp [hkeys1]
      · intro q hq
        rcases List.mem_cons.mp hq with hq1 | hq2
        · subst hq1
          have hh := hlen (a.affiliate_id, h₀) (List.mem_cons_self _ _)
          simp only at hh ⊢
          simp [hh.1, hh.2.1, hh.2.2.1, hh.2.2.2]
        · exact hlen1 q hq2

/- ## Name/id preservation through the engine phases -/

theorem ebind_ok {α β : Type} (x : EngineM α) (f : α → EngineM β) (k : ℕ) (b : β)
    (k2 : ℕ) (h : ebind x f k = .ok (b, k2)) :
    ∃ a k1, x k = .ok (a, k1) ∧ f a k1 = .ok (b, k2) := by
  unfold ebind at h
  cases hx : x k with
  | error e => rw [hx] at h; exact absurd h (by simp)
  | ok p =>
    obtain ⟨a, k1⟩ := p
    rw [hx] at h
    exact ⟨a, k1, rfl, h⟩

theorem buy_token_ok (env : CurveEnv) (o : RandOracle) (token : Token)
    (affiliate : Affiliate) (q cost : ℚ) (k : ℕ) (t' : Token) (a' : Affiliate) (k' : ℕ)
    (h : buy_token env o token affiliate q cost k = .ok ((t', a'), k')) :
    t'.name = token.name ∧ a'.affiliate_id = affiliate.affiliate_id := by
  simp only [buy_token] at h
  split at h
  · exact absurd h (by simp)
  · next tb pb kb heqb =>
    split at h
    · exact absurd h (by simp)
    · next a2 heqt =>
      simp only [Except.ok.injEq, Prod.mk.injEq] at h
      obtain ⟨⟨ht, ha⟩, hk⟩ := h
      subst ht ha
      obtain ⟨hn, -⟩ := buy_ok_cases env o token q k tb pb kb heqb
      exact ⟨hn, (track_referral_ok _ a2 cost heqt).1⟩

theorem sell_token_ok (env : CurveEnv) (o : RandOracle) (token : Token)
    (affiliate : Affiliate) (q : ℚ) (k : ℕ) (t' : Token) (a' : Affiliate) (k' : ℕ)
    (h : sell_token env o token affiliate q k = .ok ((t', a'), k')) :
    t'.name = token.name ∧ a'.affiliate_id = affiliate.affiliate_id := by
  simp only [sell_token] at h
  split at h
  · split at h
    · exact absurd h (by simp)
    · next tb pb kb heqb =>
      split at h
      · exact absurd h (by simp)
      · next w' heqw =>
        split at h
        · exact absurd h (by simp)
        · next a2 heqt =>
          simp only [Except.ok.injEq, Prod.mk.injEq] at h
          obtain ⟨⟨ht, ha⟩, hk⟩ := h
          subst ht ha
          obtain ⟨hn, -⟩ := sell_ok_cases env o token _ k tb pb kb heqb
          exact ⟨hn, (track_referral_ok _ a2 _ heqt).1⟩
  · simp only [Except.ok.injEq, Prod.mk.injEq] at h
    obtain ⟨⟨ht, ha⟩, hk⟩ := h
    subst ht ha
    exact ⟨rfl, rfl⟩

theorem map_set_name (l : List Token) :
    ∀ (i : ℕ) (t' : Token), t'.name = (l.getD i default).name →
    (l.set i t').map Token.name = l.map Token.name := by
  induction l with
  | nil => intro i t' h; simp
  | cons t ts ih =>
    intro i t' h
    cases i with
    | zero =>
      simp only [List.getD, List.get?, Option.getD] at h
      simp [List.set, h]
    | succ i =>
      simp only [List.getD_cons_succ] at h
      simp [List.set, ih i t' h]

theorem epure_ok {α : Type} (a : α) (k : ℕ) (b : α) (k' : ℕ)
    (h : epure a k = .ok (b, k')) : b = a ∧ k' = k := by
  simp only [epure, Except.ok.injEq, Prod.mk.injEq] at h
  exact ⟨h.1.symm, h.2.symm⟩

theorem tradeOnce_preserves (env : CurveEnv) (o : RandOracle) (inv : ℚ)
    (st : Affiliate × List Token) (k : ℕ) (st' : Affiliate × List Token) (k' : ℕ)
    (h : tradeOnce env o inv st k = .ok (st', k')) :
    st'.2.map Token.name = st.2.map Token.name ∧
    st'.1.affiliate_id = st.1.affiliate_id := by
  obtain ⟨affiliate, tokens⟩ := st
  simp only [tradeOnce] at h
  obtain ⟨idx, k1, hidx, h⟩ := ebind_ok _ _ _ _ _ h
  obtain ⟨invest, k2, hinv, h⟩ := ebind_ok _ _ _ _ _ h
  split at h
  · obtain ⟨br, k3, hbr, h⟩ := ebind_ok _ _ _ _ _ h
    obtain ⟨st1, k4, hst1, h⟩ := ebind_ok _ _ _ _ _ h
    obtain ⟨hst', hk'⟩ := epure_ok _ _ _ _ h
    subst hst'
    have hbranch : st1.2.map Token.name = tokens.map Token.name ∧
        st1.1.affiliate_id = affiliate.affiliate_id := by
      split at hst1
      · split at hst1
        · obtain ⟨ta, k5, hta, hst1⟩ := ebind_ok _ _ _ _ _ hst1
          obtain ⟨hst1', -⟩ := epure_ok _ _ _ _ hst1
          subst hst1'
          obtain ⟨hn, hid⟩ := buy_token_ok env o _ affiliate _ _ k3 ta.1 ta.2 k5 hta
          exact ⟨map_set_name tokens idx ta.1 hn, hid⟩
        · obtain ⟨hst1', -⟩ := epure_ok _ _ _ _ hst1
          subst hst1'
          exact ⟨rfl, rfl⟩
      · obtain ⟨ta, k5, hta, hst1⟩ := ebind_ok _ _ _ _ _ hst1
        obtain ⟨hst1', -⟩ := epure_ok _ _ _ _ hst1
        subst hst1'
        obtain ⟨hn, hid⟩ := sell_token_ok env o _ affiliate _ k3 ta.1 ta.2 k5 hta
        exact ⟨map_set_name tokens idx ta.1 hn, hid⟩
    exact ⟨hbranch.1, hbranch.2⟩
  · obtain ⟨hst', hk'⟩ := epure_ok _ _ _ _ h
    subst hst'
    exact ⟨rfl, rfl⟩

theorem iterateTrades_preserves (env : CurveEnv) (o : RandOracle) (inv : ℚ) (n : ℕ) :
    ∀ (st : Affiliate × List Token) (k : ℕ) (st' : Affiliate × List Token) (k' : ℕ),
    iterateTrades env o inv n st k = .ok (st', k') →
    st'.2.map Token.name = st.2.map Token.name ∧
    st'.1.affiliate_id = st.1.affiliate_id := by
  induction n with
  | zero =>
    intro st k st' k' h
    obtain ⟨hst', -⟩ := epure_ok _ _ _ _ h
    subst hst'
    exact ⟨rfl, rfl⟩
  | succ n ih =>
    intro st k st' k' h
    simp only [iterateTrades] at h
    obtain ⟨st1, k1, h1, h2⟩ := ebind_ok _ _ _ _ _ h
    obtain ⟨ha, hb⟩ := tradeOnce_preserves env o inv st k st1 k1 h1
    obtain ⟨hc, hd⟩ := ih st1 k1 st' k' h2
    exact ⟨hc.trans ha, hd.trans hb⟩

theorem process_affiliate_trades_preserves (env : CurveEnv) (o : RandOracle)
    (affiliate : Affiliate) (tokens : List Token) (inv : ℚ) (k : ℕ)
    (st' : Affiliate × List Token) (k' : ℕ)
    (h : process_affiliate_trades env o affiliate tokens inv k = .ok (st', k')) :
    st'.2.map Token.name = tokens.map Token.name ∧
    st'.1.affiliate_id = affiliate.affiliate_id := by
  simp only [process_affiliate_trades] at h
  obtain ⟨n, k1, hn, h2⟩ := ebind_ok _ _ _ _ _ h
  exact iterateTrades_preserves env o inv n (affiliate, tokens) k1 st' k' h2

theorem processAllAffiliates_preserves (env : CurveEnv) (o : RandOracle) (inv : ℚ)
    (affiliates : List Affiliate) :
    ∀ (tokens : List Token) (k : ℕ) (out : List Token × List Affiliate) (k' : ℕ),
    processAllAffiliates env o inv affiliates tokens k = .ok (out, k') →
    out.1.map Token.name = tokens.map Token.name ∧
    out.2.map Affiliate.affiliate_id = affiliates.map Affiliate.affiliate_id := by
  induction affiliates with
  | nil =>
    intro tokens k out k' h
    obtain ⟨hout, -⟩ := epure_ok _ _ _ _ h
    subst hout
    exact ⟨rfl, rfl⟩
  | cons a rest ih =>
    intro tokens k out k' h
    simp only [processAllAffiliates] at h
    obtain ⟨pr, k1, h1, h⟩ := ebind_ok _ _ _ _ _ h
    obtain ⟨pr2, k2, h2, h⟩ := ebind_ok _ _ _ _ _ h
    obtain ⟨hout, -⟩ := epure_ok _ _ _ _ h
    subst hout
    obtain ⟨hn1, hid1⟩ := process_affiliate_trades_preserves env o a tokens inv k pr k1 h1
    obtain ⟨hn2, hid2⟩ := ih pr.2 k1 pr2 k2 h2
    exact ⟨hn2.trans hn1, by simp [hid1, hid2]⟩

theorem updateTokensAux_preserves (step : ℕ) (intervals : List ℕ) (pci : ℕ) :
    ∀ (i : ℕ) (tokens out : List Token),
    updateTokensAux step intervals pci i tokens = .ok out →
    out.map Token.name = tokens.map Token.name := by
  intro i tokens
  induction tokens generalizing i with
  | nil =>
    intro out h
    simp only [updateTokensAux, Except.ok.injEq] at h
    subst h
    rfl
  | cons t ts ih =>
    intro out h
    simp only [updateTokensAux] at h
    split at h
    · split at h
      · exact absurd h (by simp)
      · split at h
        · exact absurd h (by simp)
        · next t1 heq1 =>
          split at h
          · exact absurd h (by simp)
          · cases hrec : updateTokensAux step intervals pci (i + 1) ts with
            | error e => rw [hrec] at h; exact absurd h (by simp [Except.map])
            | ok ts' =>
              rw [hrec] at h
              simp only [Except.map, Except.ok.injEq] at h
              subst h
              have hname1 : t1.name = t.name := by
                split at heq1
                · exact (change_bonding_curve_ok t t1 heq1).1
                · simp only [Except.ok.injEq] at heq1
                  subst heq1
                  rfl
              have hname2 : (if step % pci = 0 then t1.change_bonding_curve_parameters
                  else t1).name = t.name := by
                split
                · exact (change_bonding_curve_parameters_fields t1).1.trans hname1
                · exact hname1
              simp [hname2, ih (i + 1) ts' hrec]
    · exact absurd h (by simp)

theorem token_simulation_step_preserves (env : CurveEnv) (o : RandOracle) (step : ℕ)
    (tokens : List Token) (affiliates : List Affiliate) (inv : ℚ) (intervals : List ℕ)
    (pci : ℕ) (k : ℕ) (out : List Token × List Affiliate) (k' : ℕ)
    (h : token_simulation_step env o step tokens affiliates inv intervals pci k =
      .ok (out, k')) :
    out.1.map Token.name = tokens.map Token.name ∧
    out.2.map Affiliate.affiliate_id = affiliates.map Affiliate.affiliate_id := by
  simp only [token_simulation_step] at h
  obtain ⟨pr, k1, h1, h⟩ := ebind_ok _ _ _ _ _ h
  obtain ⟨ts, k2, h2, h⟩ := ebind_ok _ _ _ _ _ h
  obtain ⟨hout, -⟩ := epure_ok _ _ _ _ h
  subst hout
  obtain ⟨hn1, hid1⟩ := processAllAffiliates_preserves env o inv affiliates tokens k pr k1 h1
  have hup : update_tokens pr.1 step intervals pci = .ok ts := by
    simp only [liftE] at h2
    cases hu : update_tokens pr.1 step intervals pci with
    | error e => rw [hu] at h2; exact absurd h2 (by simp [Except.map])
    | ok l => rw [hu] at h2; simp only [Except.map, Except.ok.injEq, Prod.mk.injEq] at h2
              rw [h2.1]
  have hn2 := updateTokensAux_preserves step intervals pci 0 pr.1 ts hup
  exact ⟨hn2.trans hn1, hid1⟩

theorem periodicSellKey_preserves (env : CurveEnv) (o : RandOracle)
    (st : Affiliate × List Token) (key : String) (k : ℕ)
    (st' : Affiliate × List Token) (k' : ℕ)
    (h : periodicSellKey env o st key k = .ok (st', k')) :
    st'.2.map Token.name = st.2.map Token.name ∧
    st'.1.affiliate_id = st.1.affiliate_id := by
  obtain ⟨affiliate, tokens⟩ := st
  simp only [periodicSellKey] at h
  split at h
  · obtain ⟨r, k1, hr, h⟩ := ebind_ok _ _ _ _ _ h
    split at h
    · obtain ⟨r2, k2, hr2, h⟩ := ebind_ok _ _ _ _ _ h
      cases hfind : tokens.findIdx? (fun t => t.name == key) with
      | none =>
        rw [hfind] at h
        obtain ⟨hst', -⟩ := epure_ok _ _ _ _ h
        subst hst'
        exact ⟨rfl, rfl⟩
      | some i =>
        rw [hfind] at h
        simp only [] at h
        split at h
        · exact absurd h (by simp)
        · next tb pb kb heqb =>
          split at h
          · exact absurd h (by simp)
          · next w' heqw =>
            split at h
            · exact absurd h (by simp)
            · next a2 heqt =>
              simp only [Except.ok.injEq, Prod.mk.injEq] at h
              obtain ⟨hpair, hk⟩ := h
              subst hpair
              obtain ⟨hn, -⟩ := sell_ok_cases env o _ _ k2 tb pb kb heqb
              exact ⟨map_set_name tokens i tb hn, (track_referral_ok _ a2 _ heqt).1⟩
    · obtain ⟨hst', -⟩ := epure_ok _ _ _ _ h
      subst hst'
      exact ⟨rfl, rfl⟩
  · obtain ⟨hst', -⟩ := epure_ok _ _ _ _ h
    subst hst'
    exact ⟨rfl, rfl⟩

theorem periodicSellKeys_preserves (env : CurveEnv) (o : RandOracle) (keys : List String) :
    ∀ (st : Affiliate × List Token) (k : ℕ) (st' : Affiliate × List Token) (k' : ℕ),
    periodicSellKeys env o keys st k = .ok (st', k') →
    st'.2.map Token.name = st.2.map Token.name ∧
    st'.1.affiliate_id = st.1.affiliate_id := by
  induction keys with
  | nil =>
    intro st k st' k' h
    obtain ⟨hst', -⟩ := epure_ok _ _ _ _ h
    subst hst'
    exact ⟨rfl, rfl⟩
  | cons key keys ih =>
    intro st k st' k' h
    simp only [periodicSellKeys] at h
    obtain ⟨st1, k1, h1, h2⟩ := ebind_ok _ _ _ _ _ h
    obtain ⟨ha, hb⟩ := periodicSellKey_preserves env o st key k st1 k1 h1
    obtain ⟨hc, hd⟩ := ih st1 k1 st' k' h2
    exact ⟨hc.trans ha, hd.trans hb⟩

theorem affiliate_simulation_step_preserves (env : CurveEnv) (o : RandOracle) (step : ℕ)
    (affiliates : List Affiliate) :
    ∀ (tokens : List Token) (k : ℕ) (out : List Token × List Affiliate) (k' : ℕ),
    affiliate_simulation_step env o step affiliates tokens k = .ok (out, k') →
    out.1.map Token.name = tokens.map Token.name ∧
    out.2.map Affiliate.affiliate_id = affiliates.map Affiliate.affiliate_id := by
  induction affiliates with
  | nil =>
    intro tokens k out k' h
    obtain ⟨hout, -⟩ := epure_ok _ _ _ _ h
    subst hout
    exact ⟨rfl, rfl⟩
  | cons a rest ih =>
    intro tokens k out k' h
    simp only [affiliate_simulation_step] at h
    obtain ⟨pr, k1, h1, h⟩ := ebind_ok _ _ _ _ _ h
    obtain ⟨pr2, k2, h2, h⟩ := ebind_ok _ _ _ _ _ h
    obtain ⟨hout, -⟩ := epure_ok _ _ _ _ h
    subst hout
    obtain ⟨hn1, hid1⟩ := periodicSellKeys_preserves env o _ (a, tokens) k pr k1 h1
    obtain ⟨hn2, hid2⟩ := ih pr.2 k1 pr2 k2 h2
    have hid3 : (({ pr.1 with
        earnings_history := pr.1.earnings_history ++ [pr.1.total_earned]
        commission_rate_history := pr.1.commission_rate_history ++ [pr.1.commission_rate]
        } : Affiliate).adjust_commission_dynamically step).affiliate_id =
        a.affiliate_id := by
      unfold Affiliate.adjust_commission_dynamically
      split
      · exact hid1
      · exact hid1
    exact ⟨hn2.trans hn1, by simp [hid2, hid3]⟩

theorem liftE_ok {α : Type} (x : Except Err α) (k : ℕ) (a : α) (k' : ℕ)
    (h : liftE x k = .ok (a, k')) : x = .ok a ∧ k' = k := by
  simp only [liftE] at h
  cases hx : x with
  | error e => rw [hx] at h; exact absurd h (by simp [Except.map])
  | ok b =>
    rw [hx] at h
    simp only [Except.map, Except.ok.injEq, Prod.mk.injEq] at h
    exact ⟨by rw [h.1], h.2.symm⟩

theorem simLoop_lens (env : CurveEnv) (o : RandOracle) (params : SimParams)
    (intervals : List ℕ) (n : ℕ) :
    ∀ (step : ℕ) (st : List Token × List Affiliate)
    (th : List (String × TokenHistory)) (ah : List (ℤ × AffiliateHistory))
    (k : ℕ) (out : List (String × TokenHistory) × List (ℤ × AffiliateHistory))
    (k' : ℕ) (s : ℕ),
    simLoop env o params intervals step n st (th, ah) k = .ok (out, k') →
    th.map Prod.fst = st.1.map Token.name →
    (st.1.map Token.name).Nodup →
    ah.map Prod.fst = st.2.map Affiliate.affiliate_id →
    (st.2.map Affiliate.affiliate_id).Nodup →
    thLens s th → ahLens s ah →
    out.1.map Prod.fst = th.map Prod.fst ∧ out.2.map Prod.fst = ah.map Prod.fst ∧
    thLens (s + n) out.1 ∧ ahLens (s + n) out.2 := by
  induction n with
  | zero =>
    intro step st th ah k out k' s h hkt hndt hka hnda hlt hla
    obtain ⟨hout, -⟩ := epure_ok _ _ _ _ h
    subst hout
    exact ⟨rfl, rfl, hlt, hla⟩
  | succ n ih =>
    intro step st th ah k out k' s h hkt hndt hka hnda hlt hla
    simp only [simLoop] at h
    obtain ⟨st1, k1, h1, h⟩ := ebind_ok _ _ _ _ _ h
    obtain ⟨st2, k2, h2, h⟩ := ebind_ok _ _ _ _ _ h
    obtain ⟨th', k3, h3, h⟩ := ebind_ok _ _ _ _ _ h
    obtain ⟨ah', k4, h4, h⟩ := ebind_ok _ _ _ _ _ h
    obtain ⟨hn1, hid1⟩ := token_simulation_step_preserves env o step st.1 st.2
      params.initial_token_investment intervals params.param_change_interval k st1 k1 h1
    obtain ⟨hn2, hid2⟩ := affiliate_simulation_step_preserves env o step st1.2 st1.1 k1
      st2 k2 h2
    have hcap1 : captureTokens st2.1 th = .ok th' := (liftE_ok _ _ _ _ h3).1
    have hcap2 : captureAffiliates st2.2 ah = .ok ah' := (liftE_ok _ _ _ _ h4).1
    have hnames2 : st2.1.map Token.name = st.1.map Token.name := hn2.trans hn1
    have hids2 : st2.2.map Affiliate.affiliate_id = st.2.map Affiliate.affiliate_id :=
      hid2.trans hid1
    obtain ⟨hk1, hl1⟩ := captureTokens_ok st2.1 th th' s (by rw [hkt, hnames2])
      (by rw [hnames2]; exact hndt) hlt hcap1
    obtain ⟨hk2, hl2⟩ := captureAffiliates_ok st2.2 ah ah' s (by rw [hka, hids2])
      (by rw [hids2]; exact hnda) hla hcap2
    obtain ⟨ho1, ho2, ho3, ho4⟩ := ih (step + 1) (st2.1, st2.2) th' ah' k4 out k' (s + 1) h
      (by simp only []; rw [hk1, hkt, hnames2])
      (by simp only []; rw [hnames2]; exact hndt)
      (by simp only []; rw [hk2, hka, hids2])
      (by simp only []; rw [hids2]; exact hnda)
      hl1 hl2
    have hadd : s + 1 + n = s + (n + 1) := by omega
    rw [hadd] at ho3 ho4
    exact ⟨ho1.trans hk1, ho2.trans hk2, ho3, ho4⟩

theorem Token.init_ok_name (nm : String) (s p : ℚ) (f : CurveFunc) (t : Token)
    (h : Token.init nm s p f = .ok t) : t.name = nm := by
  simp only [Token.init] at h
  split at h
  · exact absurd h (by simp)
  · split at h
    · exact absurd h (by simp)
    · simp only [Except.ok.injEq] at h
      subst h
      rfl

theorem Affiliate.init_ok_id (o : RandOracle) (id : ℤ) (r : ℚ) (w : Bool) (k : ℕ)
    (a : Affiliate) (k' : ℕ) (h : Affiliate.init o id r w k = .ok (a, k')) :
    a.affiliate_id = id := by
  simp only [Affiliate.init] at h
  split at h
  · exact absurd h (by simp)
  · split at h
    · exact absurd h (by simp)
    · simp only [Except.ok.injEq, Prod.mk.injEq] at h
      obtain ⟨ha, -⟩ := h
      subst ha
      rfl

theorem createTokensAux_names (o : RandOracle) (params : SimParams) (n : ℕ) :
    ∀ (i : ℕ) (k : ℕ) (tokens : List Token) (k' : ℕ),
    createTokensAux o params i n k = .ok (tokens, k') →
    tokens.map Token.name = (List.range' i n).map (fun j => "Token_" ++ toString j) := by
  induction n with
  | zero =>
    intro i k tokens k' h
    obtain ⟨ht, -⟩ := epure_ok _ _ _ _ h
    subst ht
    simp
  | succ n ih =>
    intro i k tokens k' h
    simp only [createTokensAux] at h
    obtain ⟨c, k1, hc, h⟩ := ebind_ok _ _ _ _ _ h
    obtain ⟨t, k2, ht, h⟩ := ebind_ok _ _ _ _ _ h
    obtain ⟨ts, k3, hts, h⟩ := ebind_ok _ _ _ _ _ h
    obtain ⟨hout, -⟩ := epure_ok _ _ _ _ h
    subst hout
    have hname := Token.init_ok_name _ _ _ _ t (liftE_ok _ _ _ _ ht).1
    have hrest := ih (i + 1) k2 ts k3 hts
    simp [List.range'_succ, hname, hrest]

theorem createAffiliatesAux_ids (o : RandOracle) (params : SimParams) (n : ℕ) :
    ∀ (i : ℕ) (k : ℕ) (as_ : List Affiliate) (k' : ℕ),
    createAffiliatesAux o params i n k = .ok (as_, k') →
    as_.map Affiliate.affiliate_id = List.map (fun j : ℕ => (j : ℤ)) (List.range' i n) := by
  induction n with
  | zero =>
    intro i k as_ k' h
    obtain ⟨ha, -⟩ := epure_ok _ _ _ _ h
    subst ha
    simp
  | succ n ih =>
    intro i k as_ k' h
    simp only [createAffiliatesAux] at h
    obtain ⟨a, k1, ha, h⟩ := ebind_ok _ _ _ _ _ h
    obtain ⟨rest, k2, hrest, h⟩ := ebind_ok _ _ _ _ _ h
    obtain ⟨hout, -⟩ := epure_ok _ _ _ _ h
    subst hout
    have hid := Affiliate.init_ok_id o (i : ℤ) params.initial_commission_rate _ k a k1 ha
    have hr := ih (i + 1) k1 rest k2 hrest
    simp [List.range'_succ, hid, hr]

theorem initTokenHistories_keys (tokens : List Token) :
    (initTokenHistories tokens).map Prod.fst = tokens.map Token.name := by
  simp [initTokenHistories, Function.comp]

theorem initAffiliateHistories_keys (as_ : List Affiliate) :
    (initAffiliateHistories as_).map Prod.fst = as_.map Affiliate.affiliate_id := by
  simp [initAffiliateHistories, Function.comp]

theorem initTokenHistories_lens (tokens : List Token) :
    thLens 0 (initTokenHistories tokens) := by
  intro p hp
  simp only [initTokenHistories, List.mem_map] at hp
  obtain ⟨t, -, ht⟩ := hp
  subst ht
  exact ⟨rfl, rfl, rfl⟩

theorem initAffiliateHistories_lens (as_ : List Affiliate) :
    ahLens 0 (initAffiliateHistories as_) := by
  intro p hp
  simp only [initAffiliateHistories, List.mem_map] at hp
  obtain ⟨a, -, ha⟩ := hp
  subst ha
  exact ⟨rfl, rfl, rfl, rfl⟩

/- ## End-to-end history lengths (C8) -/

/-- C8: a completed run of the engine with `N > 0` steps, `T > 0` tokens
and `A > 0` affiliates returns token histories with exactly one entry
per step in each of the price, supply and curve-name series for each of
the `T` tokens, and affiliate histories with exactly one entry per step
in each of the earnings, commission-rate, wallet-snapshot and balance
series for each of the `A` affiliates. -/
theorem run_simulation_history_lengths (env : CurveEnv) (o : RandOracle)
    (params : SimParams) (intervals : List ℕ) (k k' : ℕ)
    (th : List (String × TokenHistory)) (ah : List (ℤ × AffiliateHistory))
    (hN : 0 < params.num_simulation_steps) (hT : 0 < params.num_tokens)
    (hA : 0 < params.num_affiliates)
    (hrun : run_simulation env o params intervals k = .ok ((th, ah), k')) :
    th.length = params.num_tokens ∧ ah.length = params.num_affiliates ∧
    (∀ p ∈ th, p.2.price.length = params.num_simulation_steps ∧
      p.2.supply.length = params.num_simulation_steps ∧
      p.2.bonding_curve.length = params.num_simulation_steps) ∧
    (∀ p ∈ ah, p.2.earned.length = params.num_simulation_steps ∧
      p.2.commission_rate.length = params.num_simulation_steps ∧
      p.2.wallet.length = params.num_simulation_steps ∧
      p.2.base_currency_balance.length = params.num_simulation_steps) := by
  simp only [run_simulation] at hrun
  obtain ⟨tokens, k1, htok, hrun⟩ := ebind_ok _ _ _ _ _ hrun
  obtain ⟨affiliates, k2, haff, hrun⟩ := ebind_ok _ _ _ _ _ hrun
  have hnames := createTokensAux_names o params params.num_tokens 0 k tokens k1 htok
  have hids := createAffiliatesAux_ids o params params.num_affiliates 0 k1 affiliates k2 haff
  have hndt : (tokens.map Token.name).Nodup := by
    rw [hnames]
    exact (List.nodup_range' 0 params.num_tokens).map
      (fun a b hab => tokenName_injective a b hab)
  have hnda : (affiliates.map Affiliate.affiliate_id).Nodup := by
    rw [hids]
    exact List.Nodup.map (fun a b hab => Nat.cast_injective hab)
      (List.nodup_range' 0 params.num_affiliates)
  obtain ⟨ho1, ho2, ho3, ho4⟩ := simLoop_lens env o params intervals
    params.num_simulation_steps 0 (tokens, affiliates)
    (initTokenHistories tokens) (initAffiliateHistories affiliates) k2 (th, ah) k' 0 hrun
    (initTokenHistories_keys tokens) hndt
    (initAffiliateHistories_keys affiliates) hnda
    (initTokenHistories_lens tokens) (initAffiliateHistories_lens affiliates)
  rw [Nat.zero_add] at ho3 ho4
  have hlent : tokens.length = params.num_tokens := by
    have h5 := congrArg List.length hnames
    simp only [List.length_map, List.length_range'] at h5
    exact h5
  have hlena : affiliates.length = params.num_affiliates := by
    have h5 := congrArg List.length hids
    simp only [List.length_map, List.length_range'] at h5
    exact h5
  refine ⟨?_, ?_, ho3, ho4⟩
  · have h5 := congrArg List.length (ho1.trans (initTokenHistories_keys tokens))
    simp only [List.length_map] at h5
    rw [h5, hlent]
  · have h5 := congrArg List.length (ho2.trans (initAffiliateHistories_keys affiliates))
    simp only [List.length_map] at h5
    rw [h5, hlena]

/-- Evaluation of the concrete 1-step run. -/
theorem runC8_eval :
    run_simulation envC oracleOne paramsC [500] 0 = .ok ((thC8, ahC8), 5) := by
  have hname0 : ("Token_" ++ toString 0 : String) = "Token_0" := by decide
  norm_num [hname0, run_simulation, createTokensAux, createAffiliatesAux, simLoop,
    token_simulation_step, affiliate_simulation_step, processAllAffiliates,
    process_affiliate_trades, iterateTrades, tradeOnce, periodicSellKeys,
    periodicSellKey, update_tokens, updateTokensAux, captureTokens, captureAffiliates,
    updateByKey, initTokenHistories, initAffiliateHistories, buy_token, sell_token,
    Token.init, Affiliate.init, Token.buy, Token.sell, Token.calculate_price,
    Token.change_bonding_curve, Token.change_bonding_curve_parameters,
    Affiliate.track_referral, Affiliate.calculate_commission,
    Affiliate.adjust_commission_dynamically, meanList,
    evalCurveFunc, evalCurveParams, defaultCurveParams, drawnCurveParams,
    bondingCurveFamilies, familyPyName, CurveFunc.pyName,
    walletGet, walletSet, walletDec,
    ebind, epure, efail, liftE, drawNat, drawRand, drawUniform, randBelow, randintBetween,
    randVal, uniformVal, clamp01, oracleOne, envC, paramsC, thC8, ahC8,
    TRANSACTION_FEE_RATE, BURN_RATE, MOVING_AVERAGE_WINDOW, COMMISSION_DYNAMICS_STEP,
    DYNAMIC_ADJUSTMENT_RATE, COMMISSION_RATE_MIN, COMMISSION_RATE_MAX,
    BUY_PROBABILITY, SELL_PROBABILITY, MAX_SELL_PERCENTAGE, INVESTMENT_THRESHOLD,
    Except.map]

/-- C8 witness. -/
theorem run_simulation_history_lengths_witness :
    thC8.length = paramsC.num_tokens ∧ ahC8.length = paramsC.num_affiliates ∧
    (∀ p ∈ thC8, p.2.price.length = paramsC.num_simulation_steps ∧
      p.2.supply.length = paramsC.num_simulation_steps ∧
      p.2.bonding_curve.length = paramsC.num_simulation_steps) ∧
    (∀ p ∈ ahC8, p.2.earned.length = paramsC.num_simulation_steps ∧
      p.2.commission_rate.length = paramsC.num_simulation_steps ∧
      p.2.wallet.length = paramsC.num_simulation_steps ∧
      p.2.base_currency_balance.length = paramsC.num_simulation_steps) :=
  run_simulation_history_lengths envC oracleOne paramsC [500] 0 5 thC8 ahC8
    (by decide) (by decide) (by decide) runC8_eval
